import Mathlib

/-!
# Path index over a parsed nginx configuration (`pkg/parser/tree.go`)

A shallow embedding of the `TreeMap` of `tree.go`: the document is a store of
`Directive` cells addressed by pointer, the `[]int` ancestor paths of the
`WalkBack` records are Go slices over shared backing arrays, and the radix
tree is a finite map from path strings to records.  Every operation is a
function on this state; a Go runtime panic and an exhausted recursion budget
are explicit results.
-/

set_option linter.dupNamespace false

namespace Crossplane

/-! ## Results of running Go code -/

/-- Outcome of running a piece of Go code: it returns a value, it panics
(index out of range, nil dereference), or the recursion budget of the model
is exhausted (the Go code would still be running). -/
inductive Res (α : Type) where
  | ok : α → Res α
  | panic : Res α
  | fuel : Res α
  deriving DecidableEq, Repr

/-- Sequencing of two computations. -/
def Res.bind {α β : Type} : Res α → (α → Res β) → Res β
  | Res.ok a, f => f a
  | Res.panic, _ => Res.panic
  | Res.fuel, _ => Res.fuel

/-- Value of a list at a Go index; `panic` when out of range. -/
def at? {α : Type} (l : List α) (i : Nat) : Res α :=
  match l[i]? with
  | some a => Res.ok a
  | none => Res.panic

/-! ## Document model -/

/-- Modelled from the spec: the `Directive` struct is declared outside
`tree.go`.  Section 3 of the specification gives its fields: a name, an ordered
list of argument strings, an ordered child sequence and, for inclusion
directives, the indices of the configuration units pulled in.  `Block` is
`[]*Directive`: a list of pointers into the directive store.  Every `Block` and
`Parsed` field has a backing array of its own, so such a slice is modelled by
its elements; the entries of `Includes` are positions in the list of units. -/
structure Directive where
  Directive : String
  Args : List String
  Includes : List Nat
  Block : List Nat
  deriving DecidableEq, Repr

/-- Modelled from the spec: the `Config` struct is declared outside `tree.go`;
a configuration unit has an identifying name and a root sequence of nodes. -/
structure Config where
  File : String
  Parsed : List Nat
  deriving DecidableEq, Repr

/-- Modelled from the spec: `Directive.Name` is declared outside `tree.go`.
The name key of a node is its directive name (the scenario of section 8
addresses `listen 80` as `/server/listen`). -/
def Directive.Name (d : Crossplane.Directive) : String := d.Directive

/-- Separator of path segments. -/
def pathSep : String := "/"

/-! ## Go slices of `int` -/

/-- A Go `[]int` value: a backing array (by its address in the store of
arrays) and a length.  The capacity is the length of the backing array. -/
structure IntSlice where
  arr : Nat
  len : Nat
  deriving DecidableEq, Repr

/-- Capacity chosen by the Go runtime (`growslice`) when one word-sized element
is appended to a full slice: the capacity doubles (below the 256-element
threshold every doubled size is an allocator size class). -/
def growCap (cap : Nat) : Nat := if cap = 0 then 1 else 2 * cap

/-- The elements of a slice. -/
def readSlice (ints : List (List Nat)) (s : IntSlice) : List Nat :=
  (ints.getD s.arr []).take s.len

/-- The composite literal `[]int{v}`: a fresh backing array of capacity 1. -/
def newSlice (ints : List (List Nat)) (v : Nat) : List (List Nat) × IntSlice :=
  (ints ++ [[v]], ⟨ints.length, 1⟩)

/-- The built-in `append(s, v)` on `[]int`.  With spare capacity the element is
written into the shared backing array; otherwise the elements are copied to
a fresh, larger array. -/
def appendInt (ints : List (List Nat)) (s : IntSlice) (v : Nat) :
    List (List Nat) × IntSlice :=
  let a := ints.getD s.arr []
  if s.len < a.length then
    (ints.set s.arr (a.set s.len v), ⟨s.arr, s.len + 1⟩)
  else
    (ints ++ [a.take s.len ++ v :: List.replicate (growCap a.length - (s.len + 1)) 0],
      ⟨ints.length, s.len + 1⟩)

/-! ## Records and the radix tree -/

/-- The `WalkBack` record: the path of positions to the enclosing sequence,
the offset in that sequence, and the pointer to the directive. -/
structure WalkBack where
  Indicies : IntSlice
  Index : Nat
  Directive : Nat
  deriving DecidableEq, Repr

/-- A finite map from path strings, as a list of entries. -/
abbrev PathMap (α : Type) := List (String × α)

/-- Lookup `Tree.Get` of `github.com/armon/go-radix`. -/
def PathMap.Get {α : Type} : PathMap α → String → Option α
  | [], _ => none
  | (k, v) :: t, s => if k = s then some v else PathMap.Get t s

/-- Update `Tree.Insert`: adds the entry or overwrites the one under the key. -/
def PathMap.Insert {α : Type} : PathMap α → String → α → PathMap α
  | [], s, v => [(s, v)]
  | (k, w) :: t, s, v => if k = s then (s, v) :: t else (k, w) :: PathMap.Insert t s v

/-- Removal `Tree.Delete`: afterwards the key has no entry. -/
def PathMap.Delete {α : Type} (t : PathMap α) (s : String) : PathMap α :=
  t.filter fun e => decide (e.1 ≠ s)

/-- The radix tree of a `TreeMap`: it holds `WalkBack` values only. -/
abbrev Radix := PathMap WalkBack

/-! ## State -/

/-- The part of the state that `inject` writes: the store of `[]int` backing
arrays and the radix tree. -/
structure Idx where
  ints : List (List Nat)
  tree : Radix
  deriving DecidableEq, Repr

/-- The `TreeMap` together with the memory it points into: `dirs` is the store
of `Directive` cells (a `*Directive` is a position in it, any other value is
nil), `ints` the store of `[]int` backing arrays, `Payload` the list
`Payload.Config` of configuration units (the `Payload` pointer itself is not
nil), and `tree` the radix tree (`none` while the field is nil). -/
structure TreeMap where
  dirs : List Directive
  ints : List (List Nat)
  Payload : List Config
  tree : Option Radix
  deriving DecidableEq, Repr

/-! ## Index construction -/

/-- A `for i, x := range xs` loop threading a state, stopping at the first
panic. -/
def rangeLoop {α σ : Type} (body : Nat → α → σ → Res σ) : List α → Nat → σ → Res σ
  | [], _, s => Res.ok s
  | x :: xs, i, s => (body i x s).bind (rangeLoop body xs (i + 1))

/-- The method `inject` (the `Inserter` argument is always `t.tree.Insert`).  The
first argument bounds the depth of the recursion. -/
def inject (dirs : List Directive) (cfg : List Config) :
    Nat → String → IntSlice → List Nat → Idx → Res Idx
  | 0, _, _, _, _ => Res.fuel
  | n + 1, path, index, blocks, s =>
    rangeLoop (fun i p s =>
      (at? dirs p).bind fun block =>
      if block.Directive = "#" then Res.ok s
      else if block.Directive = "include" then
        rangeLoop (fun _ incl s =>
          (at? cfg incl).bind fun c =>
          let r := newSlice s.ints incl
          inject dirs cfg n path r.2 c.Parsed ⟨r.1, s.tree⟩) block.Includes 0 s
      else
        let here := path ++ pathSep ++ block.Name
        let val : WalkBack := ⟨index, i, p⟩
        let r := appendInt s.ints index i
        inject dirs cfg n here r.2 block.Block ⟨r.1, PathMap.Insert s.tree here val⟩)
      blocks 0 s

/-- The method `buildTree`. -/
def buildTree (fuel : Nat) (t : TreeMap) : Res TreeMap :=
  (at? t.Payload 0).bind fun config =>
  let r := newSlice t.ints 0
  (inject t.dirs t.Payload fuel "" r.2 config.Parsed ⟨r.1, []⟩).bind fun s =>
  Res.ok { t with ints := s.ints, tree := some s.tree }

/-- The constructor `NewTree`, on a payload whose cells live in `dirs`. -/
def NewTree (fuel : Nat) (dirs : List Directive) (p : List Config) : Res TreeMap :=
  buildTree fuel ⟨dirs, [], p, none⟩

/-! ## Resolving a record -/

/-- The place of a `[]*Directive` variable: the `Parsed` field of a configuration
unit or the `Block` field of a directive cell (the targets of the pointer `b`
of `Append` and `Delete`). -/
inductive SeqRef where
  | unit : Nat → SeqRef
  | block : Nat → SeqRef
  deriving DecidableEq, Repr

/-- The sequence stored at a place. -/
def seqAt (dirs : List Directive) (cfg : List Config) : SeqRef → Res (List Nat)
  | SeqRef.unit u => (at? cfg u).bind fun c => Res.ok c.Parsed
  | SeqRef.block p => (at? dirs p).bind fun d => Res.ok d.Block

/-- Assignment through the pointer: `*b = l`. -/
def setSeq (t : TreeMap) : SeqRef → List Nat → TreeMap
  | SeqRef.unit u, l => { t with Payload := t.Payload.modify (fun c => { c with Parsed := l }) u }
  | SeqRef.block p, l => { t with dirs := t.dirs.modify (fun d => { d with Block := l }) p }

/-- The loop of `Append` and `Delete` over `wb.Indicies`: the first element selects
`&Config[x].Parsed`, every later one `&(*b)[x].Block`.  The pointer `b` starts nil. -/
def resolve (t : TreeMap) (idx : List Nat) : Res (Option SeqRef) :=
  rangeLoop (fun i x (b : Option SeqRef) =>
    if i = 0 then (at? t.Payload x).bind fun _ => Res.ok (some (SeqRef.unit x))
    else match b with
      | none => Res.panic
      | some r => (seqAt t.dirs t.Payload r).bind fun l => (at? l x).bind fun p =>
          (at? t.dirs p).bind fun _ => Res.ok (some (SeqRef.block p))) idx 0 none

/-- Dereference `*b` of the resolved pointer; nil panics. -/
def derefSeq (t : TreeMap) : Option SeqRef → Res (List Nat)
  | none => Res.panic
  | some r => seqAt t.dirs t.Payload r

/-! ## Errors and lookups -/

/-- The error values built by `tree.go`, by the data their messages carry. -/
inductive Err where
  | badPath : String → Err
  | wrongType : Err
  | insertFailed : String → Nat → Err
  | couldNotDelete : Err
  | notFound : String → Err
  | notWalkBack : Err
  | notSupported : Nat → Int → Err
  deriving DecidableEq, Repr

/-- The method `walkback`: the record of a path.  The tree holds `WalkBack` values
only, so the type assertion cannot fail; a nil tree panics. -/
def walkback (t : TreeMap) (path : String) : Res (Except Err WalkBack) :=
  match t.tree with
  | none => Res.panic
  | some tr =>
    match PathMap.Get tr path with
    | none => Res.ok (Except.error (Err.badPath path))
    | some wb => Res.ok (Except.ok wb)

/-- The dynamic value returned by `Get`: a joined string or a directive pointer. -/
inductive Value where
  | str : String → Value
  | node : Nat → Value
  deriving DecidableEq, Repr

/-- The method `Get`; a nil tree is built first. -/
def Get (fuel : Nat) (t : TreeMap) (s : String) : Res (TreeMap × Except Err Value) :=
  (match t.tree with
    | none => buildTree fuel t
    | some _ => Res.ok t).bind fun t1 =>
  match t1.tree with
  | none => Res.panic
  | some tr =>
    match PathMap.Get tr s with
    | none => Res.ok (t1, Except.error (Err.notFound s))
    | some wb =>
      (at? t1.dirs wb.Directive).bind fun b =>
      if 0 < b.Args.length then Res.ok (t1, Except.ok (Value.str (String.intercalate "-" b.Args)))
      else Res.ok (t1, Except.ok (Value.node wb.Directive))

/-! ## Mutations -/

/-- Re-run `inject` on the tree of a `TreeMap` (the calls that end `Append` and
`Insert`). -/
def reinject (fuel : Nat) (t : TreeMap) (path : String) (index : IntSlice)
    (blocks : List Nat) : Res TreeMap :=
  match t.tree with
  | none => Res.panic
  | some tr =>
    (inject t.dirs t.Payload fuel path index blocks ⟨t.ints, tr⟩).bind fun s =>
    Res.ok { t with ints := s.ints, tree := some s.tree }

/-- The method `Append`. -/
def Append (fuel : Nat) (t : TreeMap) (path : String) (blocks : List Nat) :
    Res (TreeMap × Option Err) :=
  (walkback t path).bind fun r =>
  match r with
  | Except.error e => Res.ok (t, some e)
  | Except.ok wb =>
    (resolve t (readSlice t.ints wb.Indicies)).bind fun b =>
    (derefSeq t b).bind fun l =>
    (at? l wb.Index).bind fun block =>
    (at? t.dirs block).bind fun d =>
    let t1 := setSeq t (SeqRef.block block) (d.Block ++ blocks)
    (reinject fuel t1 path wb.Indicies (d.Block ++ blocks)).bind fun t2 =>
    Res.ok (t2, none)

/-- Modelled from the spec: `Directive.Insert` is declared outside `tree.go`.
It splices the nodes into the child sequence immediately before the offset,
keeping their order, and reports an error for an offset beyond the end. -/
def Directive.Insert (d : Crossplane.Directive) (index : Nat) (inserts : List Nat) :
    Option Crossplane.Directive :=
  if index ≤ d.Block.length then
    some { d with Block := d.Block.take index ++ inserts ++ d.Block.drop index }
  else none

/-- The loop of `Insert` over `wb.Indicies`: round 0 selects the unit, round 1 its
element, later rounds an element of the block of the current directive.  The
pointer `block` starts nil. -/
def resolveOwner (t : TreeMap) (idx : List Nat) : Res (Nat × Option Nat) :=
  rangeLoop (fun i x (st : Nat × Option Nat) =>
    if i = 0 then (at? t.Payload x).bind fun _ => Res.ok (x, st.2)
    else if i = 1 then
      (at? t.Payload st.1).bind fun c => (at? c.Parsed x).bind fun p => Res.ok (st.1, some p)
    else match st.2 with
      | none => Res.panic
      | some q => (at? t.dirs q).bind fun d => (at? d.Block x).bind fun p =>
          Res.ok (st.1, some p)) idx 0 (0, none)

/-- The method `Insert`. -/
def Insert (fuel : Nat) (t : TreeMap) (path : String) (inserts : List Nat) :
    Res (TreeMap × Option Err) :=
  (walkback t path).bind fun r =>
  match r with
  | Except.error e => Res.ok (t, some e)
  | Except.ok wb =>
    (at? t.Payload 0).bind fun _ =>
    (resolveOwner t (readSlice t.ints wb.Indicies)).bind fun st =>
    match st.2 with
    | none => Res.panic
    | some block =>
      (at? t.dirs block).bind fun d =>
      match d.Insert wb.Index inserts with
      | none => Res.ok (t, some (Err.insertFailed path wb.Index))
      | some d1 =>
        let t1 := setSeq t (SeqRef.block block) d1.Block
        (reinject fuel t1 path wb.Indicies d1.Block).bind fun t2 =>
        Res.ok (t2, none)

/-- Modelled from the spec: `Directive.Equal` is declared outside `tree.go`;
the specification makes it an identity comparison of node references. -/
def Directive.Equal (b2 kill : Nat) : Bool := b2 == kill

/-- The scan of `Delete` for the first element equal to `kill`. -/
def findKill (kill : Nat) : List Nat → Nat → Option Nat
  | [], _ => none
  | b2 :: rest, i => if Directive.Equal b2 kill then some i else findKill kill rest (i + 1)

/-- The method `Delete`. -/
def Delete (t : TreeMap) (path : String) : Res (TreeMap × Option Err) :=
  (walkback t path).bind fun r =>
  match r with
  | Except.error e => Res.ok (t, some e)
  | Except.ok wb =>
    (resolve t (readSlice t.ints wb.Indicies)).bind fun b =>
    (derefSeq t b).bind fun l =>
    match b, findKill wb.Directive l 0 with
    | some ref, some i =>
      let t1 := setSeq t ref (l.eraseIdx i)
      Res.ok ({ t1 with tree := t1.tree.map fun tr => PathMap.Delete tr path }, none)
    | _, _ => Res.ok (t, some Err.couldNotDelete)

/-! ## Transactions -/

/-- The type `AType` of action tags, a Go `int`. -/
abbrev AType := Int

/-- The tag `ActionUnknown`. -/
def ActionUnknown : AType := 0

/-- The tag `ActionInsert`. -/
def ActionInsert : AType := 1

/-- The tag `ActionAppend`. -/
def ActionAppend : AType := 2

/-- The tag `ActionUpdate`. -/
def ActionUpdate : AType := 3

/-- The tag `ActionDelete`. -/
def ActionDelete : AType := 4

/-- The struct `Changes`: one edit instruction. -/
structure Changes where
  Act : AType
  Path : String
  Directives : List Nat
  deriving DecidableEq, Repr

/-- The `switch` of `ChangeSet` for the instruction with number `i`. -/
def applyChange (fuel : Nat) (i : Nat) (change : Changes) (t : TreeMap) :
    Res (TreeMap × Option Err) :=
  if change.Act = ActionInsert then Insert fuel t change.Path change.Directives
  else if change.Act = ActionAppend then Append fuel t change.Path change.Directives
  else if change.Act = ActionDelete then Delete t change.Path
  else Res.ok (t, some (Err.notSupported i change.Act))

/-- The loop of `ChangeSet` from instruction number `i` on: it returns at the first
error. -/
def changeLoop (fuel : Nat) : List Changes → Nat → TreeMap → Res (TreeMap × Option Err)
  | [], _, t => Res.ok (t, none)
  | change :: rest, i, t =>
    (applyChange fuel i change t).bind fun r =>
      match r.2 with
      | some e => Res.ok (r.1, some e)
      | none => changeLoop fuel rest (i + 1) r.1

/-- The method `ChangeSet`.  The mutex has no effect on a single caller, and
`Debugging` is off. -/
def ChangeSet (fuel : Nat) (t : TreeMap) (changes : List Changes) : Res (TreeMap × Option Err) :=
  changeLoop fuel changes 0 t

/-! ## Bulk application -/

/-- Order of the keys in the radix tree: lexicographic on the characters (the
order of the UTF-8 bytes). -/
def keyLt : List Char → List Char → Bool
  | _, [] => false
  | [], _ :: _ => true
  | a :: as, b :: bs =>
    if a.toNat < b.toNat then true
    else if b.toNat < a.toNat then false
    else keyLt as bs

/-- Insertion of an entry into a list sorted by key. -/
def insertByKey {α : Type} (e : String × α) : PathMap α → PathMap α
  | [] => [e]
  | x :: xs => if keyLt e.1.data x.1.data then e :: x :: xs else x :: insertByKey e xs

/-- The entries of the map in key order. -/
def PathMap.inOrder {α : Type} (t : PathMap α) : PathMap α :=
  t.foldr insertByKey []

/-- A walk over entries with a `WalkFn` of go-radix: the walk ends as soon as the
function returns true. -/
def walkEntries {α σ : Type} (fn : String → α → σ → Res (σ × Bool)) : PathMap α → σ → Res σ
  | [], s => Res.ok s
  | e :: rest, s =>
    (fn e.1 e.2 s).bind fun r => if r.2 then Res.ok r.1 else walkEntries fn rest r.1

/-- The method `Tree.WalkPrefix` of `github.com/armon/go-radix`: the entries whose key
starts with the prefix are visited in key order; by the contract of `WalkFn`
the walk is terminated when the function returns true. -/
def PathMap.WalkPrefix {α σ : Type} (t : PathMap α) (pre : String)
    (fn : String → α → σ → Res (σ × Bool)) (s : σ) : Res σ :=
  walkEntries fn (t.inOrder.filter fun e => pre.data.isPrefixOf e.1.data) s

/-- The type `Matcher`: a Go function on a directive pointer, which may read the
cell and the cells below it. -/
abbrev Matcher := List Directive → Nat → Bool

/-- The closure `wlk` of `Apply`, on the store of directive cells: on a match the
nodes are appended to the block of the recorded directive and true is
returned. -/
def applyVisit (m : Matcher) (blocks : List Nat) (_path : String) (wb : WalkBack)
    (dirs : List Directive) : Res (List Directive × Bool) :=
  if m dirs wb.Directive then
    (at? dirs wb.Directive).bind fun _ =>
      Res.ok (dirs.modify (fun d => { d with Block := d.Block ++ blocks }) wb.Directive, true)
  else Res.ok (dirs, false)

/-- The method `Apply`; a nil tree panics. -/
def Apply (t : TreeMap) (path : String) (m : Matcher) (blocks : List Nat) :
    Res (TreeMap × Option Err) :=
  match t.tree with
  | none => Res.panic
  | some tr =>
    (PathMap.WalkPrefix tr path (applyVisit m blocks) t.dirs).bind fun dirs1 =>
      Res.ok ({ t with dirs := dirs1 }, none)

/-! ## The depth-first traversal of the specification -/

/-- One ordinary node met by the traversal: its path string, the place of the
sequence that holds it, its true ancestor path, its offset in that sequence
and the node itself. -/
structure Entry where
  path : String
  owner : SeqRef
  anc : List Nat
  off : Nat
  node : Nat
  deriving DecidableEq, Repr

/-- A `range` loop that gathers the lists produced for the elements, in order. -/
def rangeCollect {α β : Type} (body : Nat → α → Res (List β)) : List α → Nat → Res (List β)
  | [], _ => Res.ok []
  | x :: xs, i =>
    (body i x).bind fun l => (rangeCollect body xs (i + 1)).bind fun r => Res.ok (l ++ r)

/-- The traversal rule of section 4.1 of the specification, as the list of
nodes in depth-first order: comments are skipped, an inclusion node is
replaced by the traversal of the units it names under the same path and with
ancestor path `[unit]`, an ordinary node gets the path of its sequence followed
by the separator and its name key and is followed by the traversal of its
children, whose ancestor path is extended by its offset. -/
def walk (dirs : List Directive) (cfg : List Config) :
    Nat → String → SeqRef → List Nat → List Nat → Res (List Entry)
  | 0, _, _, _, _ => Res.fuel
  | n + 1, path, owner, anc, blocks =>
    rangeCollect (fun i p =>
      (at? dirs p).bind fun d =>
      if d.Directive = "#" then Res.ok []
      else if d.Directive = "include" then
        rangeCollect (fun _ u =>
          (at? cfg u).bind fun c => walk dirs cfg n path (SeqRef.unit u) [u] c.Parsed)
          d.Includes 0
      else
        (walk dirs cfg n (path ++ pathSep ++ d.Name) (SeqRef.block p) (anc ++ [i]) d.Block).bind
          fun l => Res.ok (⟨path ++ pathSep ++ d.Name, owner, anc, i, p⟩ :: l))
      blocks 0

/-- The same traversal as a relation: `Reaches dirs cfg path owner anc e` holds when
the traversal of the sequence at `owner`, started with path `path` and ancestor
path `anc`, meets the ordinary node described by `e`. -/
inductive Reaches (dirs : List Directive) (cfg : List Config) :
    String → SeqRef → List Nat → Entry → Prop where
  | here {path : String} {owner : SeqRef} {anc blocks : List Nat} {i p : Nat}
      {d : Crossplane.Directive} :
      seqAt dirs cfg owner = Res.ok blocks → blocks[i]? = some p → dirs[p]? = some d →
      d.Directive ≠ "#" → d.Directive ≠ "include" →
      Reaches dirs cfg path owner anc ⟨path ++ pathSep ++ d.Name, owner, anc, i, p⟩
  | child {path : String} {owner : SeqRef} {anc blocks : List Nat} {i p : Nat}
      {d : Crossplane.Directive} {e : Entry} :
      seqAt dirs cfg owner = Res.ok blocks → blocks[i]? = some p → dirs[p]? = some d →
      d.Directive ≠ "#" → d.Directive ≠ "include" →
      Reaches dirs cfg (path ++ pathSep ++ d.Name) (SeqRef.block p) (anc ++ [i]) e →
      Reaches dirs cfg path owner anc e
  | incl {path : String} {owner : SeqRef} {anc blocks : List Nat} {i p u : Nat}
      {d : Crossplane.Directive} {e : Entry} :
      seqAt dirs cfg owner = Res.ok blocks → blocks[i]? = some p → dirs[p]? = some d →
      d.Directive ≠ "#" → d.Directive = "include" → u ∈ d.Includes →
      Reaches dirs cfg path (SeqRef.unit u) [u] e →
      Reaches dirs cfg path owner anc e

/-- The sequence at a place can be traversed to the end: it exists, its elements
are directive cells, and the same holds below every ordinary element and in
every unit named by an inclusion element.  This is the condition that all
pointers and include indices met are in range and that no chain of children
and inclusions returns to a sequence it started from. -/
inductive Acyclic (dirs : List Directive) (cfg : List Config) : SeqRef → Prop where
  | mk {owner : SeqRef} {blocks : List Nat} :
      seqAt dirs cfg owner = Res.ok blocks →
      (∀ p, p ∈ blocks → p < dirs.length) →
      (∀ p d, p ∈ blocks → dirs[p]? = some d → d.Directive ≠ "#" →
        d.Directive ≠ "include" → Acyclic dirs cfg (SeqRef.block p)) →
      (∀ p d u, p ∈ blocks → dirs[p]? = some d → d.Directive ≠ "#" →
        d.Directive = "include" → u ∈ d.Includes → Acyclic dirs cfg (SeqRef.unit u)) →
      Acyclic dirs cfg owner

/-- The last node, in traversal order, that has the given path string. -/
def lastAt (L : List Entry) (key : String) : Option Entry :=
  (L.filter fun e => decide (e.path = key)).getLast?

/-- The document is a forest: no pointer stands at two positions of the
sequences of the document. -/
def Forest (dirs : List Directive) (cfg : List Config) : Prop :=
  ((cfg.map fun c => c.Parsed) ++ (dirs.map fun d => d.Block)).flatten.Nodup

/-- What the index records about a node, apart from the address of the
backing array: length of the ancestor path, offset and node. -/
def WalkBack.view (r : WalkBack) : Nat × Nat × Nat := (r.Indicies.len, r.Index, r.Directive)

/-- What the specification records about a node of the traversal. -/
def Entry.view (e : Entry) : Nat × Nat × Nat := (e.anc.length, e.off, e.node)

/-- The index a list of traversal entries produces by successive `Insert`, each
entry seen through `f`. -/
def indexOf {β : Type} (f : Entry → β) (L : List Entry) (m : PathMap β) : PathMap β :=
  L.foldl (fun a e => PathMap.Insert a e.path (f e)) m

/-- A map with every value replaced by its image. -/
def PathMap.image {α β : Type} (f : α → β) (t : PathMap α) : PathMap β :=
  t.map fun e => (e.1, f e.2)

/-! ## Specification-side notions -/

/-- Positional replay of an ancestor path below its first element: each element
`x` selects the `Block` of element `x` of the sequence reached so far. -/
def replayFrom (t : TreeMap) : List Nat → List Nat → Option (List Nat)
  | l, [] => some l
  | l, x :: rest =>
    match l[x]? with
    | none => none
    | some p =>
      match t.dirs[p]? with
      | none => none
      | some d => replayFrom t d.Block rest

/-- Positional replay of an ancestor path from the document root: the first
element `u` selects `Config[u].Parsed`. -/
def replay (t : TreeMap) : List Nat → Option (List Nat)
  | [] => none
  | u :: rest =>
    match t.Payload[u]? with
    | none => none
    | some c => replayFrom t c.Parsed rest

/-- A record is positionally valid when the replay of its ancestor path yields a
sequence whose element at the record's offset is the record's directive. -/
def positionallyValid (t : TreeMap) (r : WalkBack) : Bool :=
  match replay t (readSlice t.ints r.Indicies) with
  | none => false
  | some l => l[r.Index]? == some r.Directive

/-- The record stored under a path, if any. -/
def recordAt (t : TreeMap) (path : String) : Option WalkBack :=
  match t.tree with
  | none => none
  | some tr => PathMap.Get tr path

/-- The ancestor path of the record stored under a path, read from memory. -/
def ancestorsAt (t : TreeMap) (path : String) : Option (List Nat) :=
  (recordAt t path).map fun r => readSlice t.ints r.Indicies

/-- Two outcomes agree: both return, with related values, or both panic, or
both exhaust the recursion budget. -/
def Res.rel {α β : Type} (R : α → β → Prop) : Res α → Res β → Prop
  | Res.ok a, Res.ok b => R a b
  | Res.panic, Res.panic => True
  | Res.fuel, Res.fuel => True
  | _, _ => False

/-- The index in the state `s'` is the index in `s` followed by the insertion of
the entries of `L` in order, as far as lengths of ancestor paths, offsets and
nodes go. -/
def Tracks (s s' : Idx) (L : List Entry) : Prop :=
  PathMap.image WalkBack.view s'.tree = indexOf Entry.view L (PathMap.image WalkBack.view s.tree)

/-- The depth-first traversal of the document from unit 0, with the empty path
and ancestor path `[0]`. -/
def traversal (dirs : List Directive) (cfg : List Config) (fuel : Nat) : Res (List Entry) :=
  (at? cfg 0).bind fun c => walk dirs cfg fuel "" (SeqRef.unit 0) [0] c.Parsed

/-- Position of the sequence at a place in the list of all sequences of the
document (units first, then cells). -/
def SeqRef.slot (cfg : List Config) : SeqRef → Nat
  | SeqRef.unit u => u
  | SeqRef.block p => cfg.length + p

/-- The fields of a directive cell other than its child sequence. -/
def Directive.label (d : Crossplane.Directive) : String × List String × List Nat :=
  (d.Directive, d.Args, d.Includes)

/-- The store `b` extends the store `a`: every backing array of `a` is still
there, with the same length and the same first element. -/
@[reducible] def Ext (a b : List (List Nat)) : Prop :=
  ∀ (k : Nat) (x : List Nat), a[k]? = some x →
    ∃ y : List Nat, b[k]? = some y ∧ y.length = x.length ∧ y.head? = x.head?

/-- The slice `index` lies within its backing array, is as long as the ancestor
path `anc`, which is not empty, and the array starts with the first element
of `anc`. -/
def SliceOK (ints : List (List Nat)) (index : IntSlice) (anc : List Nat) : Prop :=
  ∃ a, ints[index.arr]? = some a ∧ 1 ≤ index.len ∧ index.len ≤ a.length ∧
    index.len = anc.length ∧ a.head? = anc.head?

/-- First element of the backing array of the ancestor path of a record, and
whether the path is not empty and lies within the array. -/
def WalkBack.head (ints : List (List Nat)) (r : WalkBack) : Option Nat × Bool :=
  match ints[r.Indicies.arr]? with
  | some a => (a.head?, decide (1 ≤ r.Indicies.len ∧ r.Indicies.len ≤ a.length))
  | none => (none, false)

/-- First element of the ancestor path of a node of the traversal. -/
def Entry.head (e : Entry) : Option Nat × Bool := (e.anc.head?, true)

/-- Every record of the tree has its backing array in the store. -/
def Stored (s : Idx) : Prop := ∀ e, e ∈ s.tree → e.2.Indicies.arr < s.ints.length

/-- Run from a state `s` whose records are stored, with an ancestor path `index`
that stands for `anc`: the store is extended, and the index has received the
entries of `L` in order, each with a stored ancestor path that starts like the
one of the entry. -/
def TracksHead (index : IntSlice) (anc : List Nat) (s s' : Idx) (L : List Entry) : Prop :=
  Stored s → SliceOK s.ints index anc →
    Stored s' ∧ Ext s.ints s'.ints ∧
    PathMap.image (WalkBack.head s'.ints) s'.tree =
      indexOf Entry.head L (PathMap.image (WalkBack.head s'.ints) s.tree)

/-! ## Sample documents -/

/-- Store of the document `http { server { location / { root /var; } gzip on; } }`
with one further, detached cell `index index.html`. -/
def nestedDirs : List Directive :=
  [⟨"http", [], [], [1]⟩,
   ⟨"server", [], [], [2, 4]⟩,
   ⟨"location", ["/"], [], [3]⟩,
   ⟨"root", ["/var"], [], []⟩,
   ⟨"gzip", ["on"], [], []⟩,
   ⟨"index", ["index.html"], [], []⟩]

/-- The single configuration unit of the nested document. -/
def nestedCfg : List Config := [⟨"nginx.conf", [0]⟩]

/-- Store of the document
`http { server { location / { root /var; } if ($bad) { return 404; } } }` with one
further, detached cell `index index.html`. -/
def branchDirs : List Directive :=
  [⟨"http", [], [], [1]⟩,
   ⟨"server", [], [], [2, 4]⟩,
   ⟨"location", ["/"], [], [3]⟩,
   ⟨"root", ["/var"], [], []⟩,
   ⟨"if", ["($bad)"], [], [5]⟩,
   ⟨"return", ["404"], [], []⟩,
   ⟨"index", ["index.html"], [], []⟩]

/-- The child sequences of all cells of the store, in store order. -/
def blocksOf (t : TreeMap) : List (List Nat) := t.dirs.map fun d => d.Block

/-- The value `Get` computes for the directive at a pointer. -/
def valueOf (dirs : List Directive) (p : Nat) : Option Value :=
  dirs[p]?.map fun b =>
    if 0 < b.Args.length then Value.str (String.intercalate "-" b.Args) else Value.node p

/-- The outcome of `Get` without the state. -/
def getValue (fuel : Nat) (t : TreeMap) (s : String) : Res (Except Err Value) :=
  (Get fuel t s).bind fun r => Res.ok r.2

/-- Store of the two-unit document whose unit 0 is
`include conf.d/gzip.conf; server { listen 80; }` and whose unit 1 is
`gzip on; # compression`. -/
def includeDirs : List Directive :=
  [⟨"include", ["conf.d/gzip.conf"], [1], []⟩,
   ⟨"server", [], [], [2]⟩,
   ⟨"listen", ["80"], [], []⟩,
   ⟨"gzip", ["on"], [], []⟩,
   ⟨"#", [], [], []⟩]

/-- The two configuration units of the document with an inclusion. -/
def includeCfg : List Config := [⟨"nginx.conf", [0, 1]⟩, ⟨"conf.d/gzip.conf", [3, 4]⟩]

/-- Store of the document `listen 80; listen 443;`: two siblings with the same
name key. -/
def twinDirs : List Directive :=
  [⟨"listen", ["80"], [], []⟩,
   ⟨"listen", ["443"], [], []⟩]

/-- The single configuration unit of the document with two `listen` siblings. -/
def twinCfg : List Config := [⟨"nginx.conf", [0, 1]⟩]

/-- Store of the document `server { listen 80; }` of the scenario of section 8,
with one further, detached cell `proxy_pass backend`. -/
def serverDirs : List Directive :=
  [⟨"server", [], [], [1]⟩,
   ⟨"listen", ["80"], [], []⟩,
   ⟨"proxy_pass", ["backend"], [], []⟩]

/-- The single configuration unit of the scenario. -/
def serverCfg : List Config := [⟨"nginx.conf", [0]⟩]

/-- The state after `NewTree` on the scenario document. -/
def serverTree : TreeMap :=
  { dirs := serverDirs
    ints := [[0], [0, 0], [0, 0, 0, 0]]
    Payload := serverCfg
    tree := some [("/server", ⟨⟨0, 1⟩, 0, 0⟩), ("/server/listen", ⟨⟨1, 2⟩, 0, 1⟩)] }

/-- The state after `Delete("/server/listen")` on the built scenario document. -/
def serverDeleted : TreeMap :=
  { dirs := [⟨"server", [], [], []⟩, ⟨"listen", ["80"], [], []⟩,
      ⟨"proxy_pass", ["backend"], [], []⟩]
    ints := [[0], [0, 0], [0, 0, 0, 0]]
    Payload := serverCfg
    tree := some [("/server", ⟨⟨0, 1⟩, 0, 0⟩)] }

/-- Store of the document `server { listen 80; listen 80; }`: two siblings that
look alike. -/
def alikeDirs : List Directive :=
  [⟨"server", [], [], [1, 2]⟩,
   ⟨"listen", ["80"], [], []⟩,
   ⟨"listen", ["80"], [], []⟩]

/-- The state after `NewTree` on the document with two look-alike siblings. -/
def alikeTree : TreeMap :=
  { dirs := alikeDirs
    ints := [[0], [0, 0], [0, 0, 0, 0], [0, 0, 1, 0]]
    Payload := serverCfg
    tree := some [("/server", ⟨⟨0, 1⟩, 0, 0⟩), ("/server/listen", ⟨⟨1, 2⟩, 1, 2⟩)] }

/-- The state after `Delete("/server/listen")` on the built document with two
look-alike siblings. -/
def alikeDeleted : TreeMap :=
  { dirs := [⟨"server", [], [], [1]⟩, ⟨"listen", ["80"], [], []⟩, ⟨"listen", ["80"], [], []⟩]
    ints := [[0], [0, 0], [0, 0, 0, 0], [0, 0, 1, 0]]
    Payload := serverCfg
    tree := some [("/server", ⟨⟨0, 1⟩, 0, 0⟩)] }

/-- The record under `/server/listen` after the build of the document with two
look-alike siblings: offset 1, the second `listen`. -/
def alikeRecord : WalkBack := ⟨⟨1, 2⟩, 1, 2⟩

/-- Store of the document `http { server { listen 80; } gzip on; }` with one further,
detached cell `index index.html`. -/
def familyDirs : List Directive :=
  [⟨"http", [], [], [1, 3]⟩,
   ⟨"server", [], [], [2]⟩,
   ⟨"listen", ["80"], [], []⟩,
   ⟨"gzip", ["on"], [], []⟩,
   ⟨"index", ["index.html"], [], []⟩]

/-- Store of the document `events { } http { }` with one further, detached cell
`gzip on`. -/
def pairDirs : List Directive :=
  [⟨"events", [], [], []⟩,
   ⟨"http", [], [], []⟩,
   ⟨"gzip", ["on"], [], []⟩]

/-- The single configuration unit of the document `events { } http { }`. -/
def pairCfg : List Config := [⟨"nginx.conf", [0, 1]⟩]

/-- The matcher that accepts every directive. -/
def anyDirective : Matcher := fun _ _ => true

/-- The instruction number that the message of an error names.  Only the error
for an unsupported action tag names one (the number printed by the wrapped
error of `Insert` is the offset of the record, not an instruction number). -/
def Err.instruction? : Err → Option Nat
  | Err.notSupported i _ => some i
  | _ => none

/-- The path that the message of an error names. -/
def Err.path? : Err → Option String
  | Err.badPath p => some p
  | Err.insertFailed p _ => some p
  | Err.notFound p => some p
  | _ => none

/-- The same error for an instruction list that starts `k` instructions later. -/
def Err.shift (k : Nat) : Err → Err
  | Err.notSupported i a => Err.notSupported (k + i) a
  | e => e

/-- What the error `e`, returned for the instruction `c` with number `i`, can be. -/
def ErrorOf (i : Nat) (c : Changes) (e : Err) : Prop :=
  (c.Act = ActionInsert ∧ (e = Err.badPath c.Path ∨ ∃ off, e = Err.insertFailed c.Path off)) ∨
  (c.Act = ActionAppend ∧ e = Err.badPath c.Path) ∨
  (c.Act = ActionDelete ∧ (e = Err.badPath c.Path ∨ e = Err.couldNotDelete)) ∨
  (c.Act ≠ ActionInsert ∧ c.Act ≠ ActionAppend ∧ c.Act ≠ ActionDelete ∧
    e = Err.notSupported i c.Act)

/-- The value of an outcome that returned, and a default otherwise. -/
def Res.getD {α : Type} (d : α) : Res α → α
  | Res.ok a => a
  | _ => d

/-- The state after `NewTree` on the nested document. -/
def nestedTree : TreeMap := Res.getD ⟨[], [], [], none⟩ (NewTree 6 nestedDirs nestedCfg)

/-- The state after `Insert("/http/server", index)` on the built nested document. -/
def nestedInserted : TreeMap :=
  (Res.getD (⟨[], [], [], none⟩, none) (Insert 6 nestedTree "/http/server" [5])).1

/-- The state after `Append("/server", proxy_pass)` on the built scenario document. -/
def serverAppended : TreeMap :=
  (Res.getD (⟨[], [], [], none⟩, none) (Append 3 serverTree "/server" [2])).1

/-- The state after `NewTree` on the document `events { } http { }`. -/
def pairTree : TreeMap := Res.getD ⟨[], [], [], none⟩ (NewTree 3 pairDirs pairCfg)

/-- The preconditions of index construction, for a rank of the sequences of the
document: every pointer in a sequence is a cell of the store, every include
index is smaller than the number of units, and the rank falls from a sequence
to the block of each of its ordinary elements and to each unit named by one
of its inclusion elements, so that no chain of children and inclusions
returns to where it started. -/
structure Ranked (dirs : List Directive) (cfg : List Config) (rank : SeqRef → Nat) : Prop where
  ptr : ∀ (r : SeqRef) (l : List Nat) (p : Nat),
    seqAt dirs cfg r = Res.ok l → p ∈ l → p < dirs.length
  child : ∀ (r : SeqRef) (l : List Nat) (p : Nat) (d : Crossplane.Directive),
    seqAt dirs cfg r = Res.ok l → p ∈ l → dirs[p]? = some d →
    d.Directive ≠ "#" → d.Directive ≠ "include" → rank (SeqRef.block p) < rank r
  incl : ∀ (r : SeqRef) (l : List Nat) (p : Nat) (d : Crossplane.Directive) (u : Nat),
    seqAt dirs cfg r = Res.ok l → p ∈ l → dirs[p]? = some d →
    d.Directive ≠ "#" → d.Directive = "include" → u ∈ d.Includes →
    u < cfg.length ∧ rank (SeqRef.unit u) < rank r

/-- A rank for the document with an inclusion: unit 0 above unit 1 and above the
block of `server`, these above the empty blocks. -/
def includeRank : SeqRef → Nat
  | SeqRef.unit 0 => 2
  | SeqRef.unit _ => 1
  | SeqRef.block 1 => 1
  | SeqRef.block _ => 0

/-- Store of a document whose only node includes its own unit. -/
def loopDirs : List Directive := [⟨"include", ["nginx.conf"], [0], []⟩]

/-- The single configuration unit of the self-including document. -/
def loopCfg : List Config := [⟨"nginx.conf", [0]⟩]

/-- The causes for which the instruction `c` with number `k`, run on the state
`t`, fails, each with its error: the path is not indexed (for the three
supported tags), the splice of `Insert` is refused, the search of `Delete` finds
no element of the resolved sequence equal to the node of the record, or the
tag is not supported. -/
def FailureOf (k : Nat) (c : Changes) (t : TreeMap) (e : Err) : Prop :=
  ((c.Act = ActionInsert ∨ c.Act = ActionAppend ∨ c.Act = ActionDelete) ∧
    (∃ tr, t.tree = some tr ∧ PathMap.Get tr c.Path = none) ∧ e = Err.badPath c.Path) ∨
  (c.Act = ActionInsert ∧ ∃ wb st block d, recordAt t c.Path = some wb ∧
    t.Payload[0]? ≠ none ∧
    resolveOwner t (readSlice t.ints wb.Indicies) = Res.ok st ∧ st.2 = some block ∧
    t.dirs[block]? = some d ∧ d.Insert wb.Index c.Directives = none ∧
    e = Err.insertFailed c.Path wb.Index) ∨
  (c.Act = ActionDelete ∧ ∃ wb ref l, recordAt t c.Path = some wb ∧
    resolve t (readSlice t.ints wb.Indicies) = Res.ok (some ref) ∧
    seqAt t.dirs t.Payload ref = Res.ok l ∧ wb.Directive ∉ l ∧ e = Err.couldNotDelete) ∨
  (c.Act ≠ ActionInsert ∧ c.Act ≠ ActionAppend ∧ c.Act ≠ ActionDelete ∧
    e = Err.notSupported k c.Act)

/-! ## Theorems -/

/-! ### Outcomes and loops -/

theorem Res.bind_eq_ok {α β : Type} {x : Res α} {f : α → Res β} {b : β} :
    x.bind f = Res.ok b ↔ ∃ a, x = Res.ok a ∧ f a = Res.ok b := by
  cases x <;> simp [Res.bind]

theorem Res.bind_ok {α β : Type} (a : α) (f : α → Res β) : (Res.ok a).bind f = f a := rfl

theorem at?_eq_ok {α : Type} {l : List α} {i : Nat} {a : α} :
    at? l i = Res.ok a ↔ l[i]? = some a := by
  unfold at?
  cases h : l[i]? <;> simp

theorem Res.rel_bind {α β γ δ : Type} {R : α → β → Prop} {S : γ → δ → Prop}
    {x : Res α} {y : Res β} {f : α → Res γ} {g : β → Res δ}
    (h : Res.rel R x y) (hf : ∀ a b, R a b → Res.rel S (f a) (g b)) :
    Res.rel S (x.bind f) (y.bind g) := by
  cases x <;> cases y <;> simp_all [Res.rel, Res.bind]

theorem Res.rel_ok_left {α β : Type} {R : α → β → Prop} {a : α} {y : Res β}
    (h : Res.rel R (Res.ok a) y) : ∃ b, y = Res.ok b ∧ R a b := by
  cases y <;> simp_all [Res.rel]

theorem Res.rel_ok_right {α β : Type} {R : α → β → Prop} {x : Res α} {b : β}
    (h : Res.rel R x (Res.ok b)) : ∃ a, x = Res.ok a ∧ R a b := by
  cases x <;> simp_all [Res.rel]

/-- A state-threading loop and a collecting loop over the same list agree when
their bodies agree and the relation composes along the loop. -/
theorem rangeLoop_rel {α σ β : Type} (R : σ → σ → List β → Prop)
    (hrefl : ∀ s, R s s [])
    (htrans : ∀ s s1 s2 l r, R s s1 l → R s1 s2 r → R s s2 (l ++ r))
    (f : Nat → α → σ → Res σ) (g : Nat → α → Res (List β)) (xs : List α)
    (h : ∀ i x s, x ∈ xs → Res.rel (R s) (f i x s) (g i x)) :
    ∀ i s, Res.rel (R s) (rangeLoop f xs i s) (rangeCollect g xs i) := by
  induction xs with
  | nil => intro i s; simpa [rangeLoop, rangeCollect, Res.rel] using hrefl s
  | cons x xs ih =>
    intro i s
    simp only [rangeLoop, rangeCollect]
    refine Res.rel_bind (h i x s (List.mem_cons_self x xs)) ?_
    intro s1 l hl
    have h2 := ih (fun i x s hx => h i x s (List.mem_cons_of_mem _ hx)) (i + 1) s1
    revert h2
    cases rangeLoop f xs (i + 1) s1 <;> cases rangeCollect g xs (i + 1) <;>
      simp only [Res.rel, Res.bind, imp_self, false_imp_iff]
    exact fun h2 => htrans _ _ _ _ _ hl h2

/-! ### The path map -/

theorem PathMap.Get_Insert {α : Type} (t : PathMap α) (k s : String) (v : α) :
    PathMap.Get (PathMap.Insert t k v) s = if k = s then some v else PathMap.Get t s := by
  induction t with
  | nil => simp [PathMap.Insert, PathMap.Get]
  | cons e t ih =>
    obtain ⟨k', w⟩ := e
    by_cases h : k' = k
    · subst h
      by_cases h2 : k' = s <;> simp [PathMap.Insert, PathMap.Get, h2]
    · by_cases h2 : k' = s
      · subst h2
        have : ¬ k = k' := fun h3 => h h3.symm
        simp [PathMap.Insert, PathMap.Get, h, this]
      · simp [PathMap.Insert, PathMap.Get, h, h2, ih]

theorem PathMap.Get_image {α β : Type} (f : α → β) (t : PathMap α) (s : String) :
    PathMap.Get (PathMap.image f t) s = (PathMap.Get t s).map f := by
  induction t with
  | nil => simp [PathMap.image, PathMap.Get]
  | cons e t ih =>
    obtain ⟨k, w⟩ := e
    by_cases h : k = s
    · simp [PathMap.image, PathMap.Get, h]
    · simpa [PathMap.image, PathMap.Get, h] using ih

theorem PathMap.image_Insert {α β : Type} (f : α → β) (t : PathMap α) (k : String) (v : α) :
    PathMap.image f (PathMap.Insert t k v) = PathMap.Insert (PathMap.image f t) k (f v) := by
  induction t with
  | nil => simp [PathMap.image, PathMap.Insert]
  | cons e t ih =>
    obtain ⟨k', w⟩ := e
    by_cases h : k' = k
    · simp [PathMap.image, PathMap.Insert, h]
    · simpa [PathMap.image, PathMap.Insert, h] using ih

theorem PathMap.Get_Delete_self {α : Type} (t : PathMap α) (s : String) :
    PathMap.Get (PathMap.Delete t s) s = none := by
  induction t with
  | nil => simp [PathMap.Delete, PathMap.Get]
  | cons e t ih =>
    obtain ⟨k, w⟩ := e
    by_cases h : k = s
    · simpa [PathMap.Delete, List.filter, h] using ih
    · simpa [PathMap.Delete, List.filter, h, PathMap.Get] using ih

theorem lastAt_concat (L : List Entry) (e : Entry) (key : String) :
    lastAt (L ++ [e]) key = if e.path = key then some e else lastAt L key := by
  unfold lastAt
  by_cases h : e.path = key
  · simp [List.filter_append, List.filter, h]
  · simp [List.filter_append, List.filter, h]

theorem indexOf_concat {β : Type} (f : Entry → β) (L : List Entry) (e : Entry)
    (m : PathMap β) :
    indexOf f (L ++ [e]) m = PathMap.Insert (indexOf f L m) e.path (f e) := by
  simp [indexOf, List.foldl_append]

theorem indexOf_append {β : Type} (f : Entry → β) (L1 L2 : List Entry) (m : PathMap β) :
    indexOf f (L1 ++ L2) m = indexOf f L2 (indexOf f L1 m) := by
  simp [indexOf, List.foldl_append]

theorem indexOf_cons {β : Type} (f : Entry → β) (e : Entry) (L : List Entry) (m : PathMap β) :
    indexOf f (e :: L) m = indexOf f L (PathMap.Insert m e.path (f e)) := rfl

/-- Looking a key up in the index of a traversal gives the last entry with that
path, and what was there before when there is none. -/
theorem Get_indexOf {β : Type} (f : Entry → β) (L : List Entry) (m : PathMap β)
    (key : String) :
    PathMap.Get (indexOf f L m) key =
      match lastAt L key with
      | some e => some (f e)
      | none => PathMap.Get m key := by
  induction L using List.reverseRecOn with
  | nil => simp [indexOf, lastAt]
  | append_singleton L e ih =>
    rw [indexOf_concat, PathMap.Get_Insert, lastAt_concat]
    by_cases h : e.path = key
    · simp [h]
    · simp [h, ih]

set_option maxRecDepth 100000 in
/-- C1 (evaluation at the failing input).  After the build of
`http { server { location / { root /var; } gzip on; } }` the record under
`/http/server/location/root` has offset 0 and directive `root`, but its ancestor
path reads `[0, 0, 0, 1]` instead of `[0, 0, 0, 0]`: the `append` that extended the
path for `gzip` wrote into the backing array shared with the path of `location`.
Replaying it reaches the (empty) block of `gzip`, so the record is not
positionally valid. -/
theorem build_record_not_positionally_valid :
    (NewTree 6 nestedDirs nestedCfg).bind (fun t => Res.ok
      (recordAt t "/http/server/location/root",
       ancestorsAt t "/http/server/location/root",
       (recordAt t "/http/server/location/root").map (positionallyValid t)))
    = Res.ok (some ⟨⟨2, 4⟩, 0, 3⟩, some [0, 0, 0, 1], some false) := by
  decide

set_option maxRecDepth 100000 in
/-- C5 (evaluation at the failing input).  After the build of
`http { server { location / { root /var; } if ($bad) { return 404; } } }`,
`Append("/http/server/location/root", index)` returns no error, yet the child
sequence of `root` (cell 3) is still empty and the new node has become a child
of `return` (cell 5): the ancestor path of the record was overwritten during the
build and now leads into the block of `if`. -/
theorem append_edits_other_node :
    (NewTree 6 branchDirs nestedCfg).bind (fun t =>
      (Append 6 t "/http/server/location/root" [6]).bind fun r =>
        Res.ok (r.2, (recordAt t "/http/server/location/root").map (fun w => w.Directive),
          blocksOf t, blocksOf r.1))
    = Res.ok (none, some 3, [[1], [2, 4], [3], [], [5], [], []],
        [[1], [2, 4], [3], [], [5], [6], []]) := by
  decide

set_option maxRecDepth 100000 in
/-- C6 (evaluation at the failing input).  After the build of
`http { server { location / { root /var; } gzip on; } }`, `Insert("/http", index)` on
the top-level node `http` does not return: the ancestor path `[0]` has length 1,
the loop never assigns `block`, and the call on the nil pointer panics. -/
theorem insert_top_level_panics :
    (NewTree 6 nestedDirs nestedCfg).bind (fun t =>
      Res.ok (ancestorsAt t "/http", Insert 6 t "/http" [5]))
    = Res.ok (some [0], Res.panic) := by
  decide

set_option maxRecDepth 100000 in
/-- C9 (evaluation at the failing input).  After the build of
`http { server { location / { root /var; } gzip on; } }`,
`Insert("/http/server", index)` returns no error and the block of `http` becomes
`[index, server]`.  Afterwards the record under `/http/server` still has offset 0
(where `index` now stands), so it is not positionally valid; `Get("/http/index")`
fails with the not-found error, and the inserted node is found under
`/http/server/index` instead. -/
theorem insert_reindexes_under_target_path :
    (NewTree 6 nestedDirs nestedCfg).bind (fun t =>
      (Insert 6 t "/http/server" [5]).bind fun r =>
        (getValue 6 r.1 "/http/index").bind fun g1 =>
        (getValue 6 r.1 "/http/server/index").bind fun g2 =>
        (getValue 6 r.1 "/http/server").bind fun g3 =>
        Res.ok (r.2, (blocksOf r.1).head?, recordAt r.1 "/http/server",
          (recordAt r.1 "/http/server").map (positionallyValid r.1), g1, g2, g3))
    = Res.ok (none, some [5, 1], some ⟨⟨1, 2⟩, 0, 1⟩, some false,
        Except.error (Err.notFound "/http/index"),
        Except.ok (Value.str "index.html"), Except.ok (Value.node 1)) := by
  rfl

set_option maxRecDepth 100000 in
/-- C10 (evaluation at the failing input).  After the build of
`http { server { location / { root /var; } gzip on; } }`,
`Append("/http/server", index)` returns no error.  The target `/http/server` has
ancestor path `[0, 0]` and offset 0, so its children need `[0, 0, 0]`; the record of
the appended child `/http/server/index` has ancestor path `[0, 0]` and is not
positionally valid, the record of the old child `/http/server/gzip` was
overwritten with the same path, and a fresh build of the edited document gives
`[0, 0, 0]` for both. -/
theorem append_reindexes_with_target_ancestors :
    (NewTree 6 nestedDirs nestedCfg).bind (fun t =>
      (Append 6 t "/http/server" [5]).bind fun r =>
        (NewTree 6 r.1.dirs r.1.Payload).bind fun f =>
        Res.ok (r.2, ancestorsAt t "/http/server", ancestorsAt r.1 "/http/server/index",
          (recordAt r.1 "/http/server/index").map (positionallyValid r.1),
          ancestorsAt r.1 "/http/server/gzip",
          (recordAt r.1 "/http/server/gzip").map (positionallyValid r.1),
          ancestorsAt f "/http/server/index", ancestorsAt f "/http/server/gzip"))
    = Res.ok (none, some [0, 0], some [0, 0], some false, some [0, 0], some false,
        some [0, 0, 0], some [0, 0, 0]) := by
  rfl

/-! ### `inject` performs the traversal of the specification -/

theorem Res.rel_bind_same {α γ δ : Type} {S : γ → δ → Prop}
    {x : Res α} {f : α → Res γ} {g : α → Res δ}
    (hf : ∀ a, x = Res.ok a → Res.rel S (f a) (g a)) :
    Res.rel S (x.bind f) (x.bind g) := by
  cases x with
  | ok a => simpa [Res.bind] using hf a rfl
  | panic => simp [Res.rel, Res.bind]
  | fuel => simp [Res.rel, Res.bind]

theorem Res.rel_bind_ok_right {α β δ : Type} {R : α → β → Prop} {S : α → δ → Prop}
    {x : Res α} {y : Res β} {g : β → δ}
    (h : Res.rel R x y) (hg : ∀ a b, R a b → S a (g b)) :
    Res.rel S x (y.bind fun b => Res.ok (g b)) := by
  cases x <;> cases y <;> simp_all [Res.rel, Res.bind]

theorem Res.rel_bind_ok_left {α β γ : Type} {R : α → β → Prop} {S : γ → β → Prop}
    {x : Res α} {y : Res β} {g : α → γ}
    (h : Res.rel R x y) (hg : ∀ a b, R a b → S (g a) b) :
    Res.rel S (x.bind fun a => Res.ok (g a)) y := by
  cases x <;> cases y <;> simp_all [Res.rel, Res.bind]

theorem appendInt_len (ints : List (List Nat)) (s : IntSlice) (v : Nat) :
    (appendInt ints s v).2.len = s.len + 1 := by
  simp only [appendInt]
  split <;> rfl

theorem tracks_refl (s : Idx) : Tracks s s [] := by
  simp [Tracks, indexOf]

theorem tracks_trans (s s1 s2 : Idx) (l r : List Entry)
    (h1 : Tracks s s1 l) (h2 : Tracks s1 s2 r) : Tracks s s2 (l ++ r) := by
  unfold Tracks at *
  rw [indexOf_append, ← h1, h2]

/-- Whatever the recursion budget, `inject` and the traversal of the
specification end the same way, and when they return the index has received
exactly the entries of the traversal, in order. -/
theorem inject_walk (dirs : List Directive) (cfg : List Config) :
    ∀ (n : Nat) (path : String) (index : IntSlice) (owner : SeqRef) (anc blocks : List Nat)
      (s : Idx), index.len = anc.length →
      Res.rel (Tracks s) (inject dirs cfg n path index blocks s)
        (walk dirs cfg n path owner anc blocks) := by
  intro n
  induction n with
  | zero => intros; simp [inject, walk, Res.rel]
  | succ n ih =>
    intro path index owner anc blocks s hlen
    simp only [inject, walk]
    refine rangeLoop_rel Tracks tracks_refl tracks_trans _ _ _ ?_ 0 s
    intro i p s _
    refine Res.rel_bind_same ?_
    intro d _
    by_cases hc : d.Directive = "#"
    · simpa [hc, Res.rel] using tracks_refl s
    · by_cases hi : d.Directive = "include"
      · simp only [hc, hi, if_true, if_false]
        refine rangeLoop_rel Tracks tracks_refl tracks_trans _ _ _ ?_ 0 s
        intro _ u s _
        refine Res.rel_bind_same ?_
        intro c _
        exact ih path (newSlice s.ints u).2 (SeqRef.unit u) [u] c.Parsed
          ⟨(newSlice s.ints u).1, s.tree⟩ rfl
      · simp only [hc, hi, if_false]
        refine Res.rel_bind_ok_right
          (ih (path ++ pathSep ++ d.Name) (appendInt s.ints index i).2 (SeqRef.block p)
            (anc ++ [i]) d.Block
            ⟨(appendInt s.ints index i).1,
              PathMap.Insert s.tree (path ++ pathSep ++ d.Name) ⟨index, i, p⟩⟩
            (by simp [appendInt_len, hlen])) ?_
        intro s2 l h
        unfold Tracks at *
        rw [h, PathMap.image_Insert]
        simp [indexOf, WalkBack.view, Entry.view, hlen]

/-! ### The traversal as a list and as a relation -/

theorem rangeCollect_ok {α β : Type} (g : Nat → α → Res (List β)) :
    ∀ (xs : List α) (i : Nat) (L : List β), rangeCollect g xs i = Res.ok L →
      (∀ j x, xs[j]? = some x → ∃ l, g (i + j) x = Res.ok l) ∧
      (∀ e, e ∈ L ↔ ∃ j x l, xs[j]? = some x ∧ g (i + j) x = Res.ok l ∧ e ∈ l) := by
  intro xs
  induction xs with
  | nil =>
    intro i L h
    simp only [rangeCollect, Res.ok.injEq] at h
    subst h
    simp
  | cons x xs ih =>
    intro i L h
    simp only [rangeCollect, Res.bind_eq_ok, Res.ok.injEq] at h
    obtain ⟨l, hl, r, hr, rfl⟩ := h
    obtain ⟨ih1, ih2⟩ := ih (i + 1) r hr
    constructor
    · intro j y hj
      cases j with
      | zero =>
        simp only [List.getElem?_cons_zero, Option.some.injEq] at hj
        subst hj
        exact ⟨l, hl⟩
      | succ j =>
        simp only [List.getElem?_cons_succ] at hj
        obtain ⟨l', hl'⟩ := ih1 j y hj
        exact ⟨l', by rw [← hl']; congr 1; omega⟩
    · intro e
      rw [List.mem_append, ih2 e]
      constructor
      · rintro (he | ⟨j, y, l', hj, hl', he⟩)
        · exact ⟨0, x, l, by simp, hl, he⟩
        · exact ⟨j + 1, y, l', by simpa using hj, by rw [← hl']; congr 1; omega, he⟩
      · rintro ⟨j, y, l', hj, hl', he⟩
        cases j with
        | zero =>
          simp only [List.getElem?_cons_zero, Option.some.injEq] at hj
          subst hj
          rw [Nat.add_zero, hl] at hl'
          cases hl'
          exact Or.inl he
        | succ j =>
          simp only [List.getElem?_cons_succ] at hj
          exact Or.inr ⟨j, y, l', hj, by rw [← hl']; congr 1; omega, he⟩

theorem rangeCollect_exists {α β : Type} (g : Nat → α → Res (List β)) :
    ∀ (xs : List α) (i : Nat), (∀ j x, xs[j]? = some x → ∃ l, g (i + j) x = Res.ok l) →
      ∃ L, rangeCollect g xs i = Res.ok L := by
  intro xs
  induction xs with
  | nil => intro i _; exact ⟨[], rfl⟩
  | cons x xs ih =>
    intro i h
    obtain ⟨l, hl⟩ := h 0 x (by simp)
    obtain ⟨r, hr⟩ := ih (i + 1) (fun j y hj => by
      obtain ⟨l', hl'⟩ := h (j + 1) y (by simpa using hj)
      exact ⟨l', by rw [← hl']; congr 1; omega⟩)
    rw [Nat.add_zero] at hl
    exact ⟨l ++ r, by simp [rangeCollect, Res.bind, hl, hr]⟩

theorem seqAt_block {dirs : List Directive} {cfg : List Config} {p : Nat}
    {d : Crossplane.Directive} (h : dirs[p]? = some d) :
    seqAt dirs cfg (SeqRef.block p) = Res.ok d.Block := by
  simp [seqAt, at?, h, Res.bind]

theorem seqAt_unit {dirs : List Directive} {cfg : List Config} {u : Nat}
    {c : Config} (h : cfg[u]? = some c) :
    seqAt dirs cfg (SeqRef.unit u) = Res.ok c.Parsed := by
  simp [seqAt, at?, h, Res.bind]

/-- Every entry of the traversal list is reached in the sense of `Reaches`. -/
theorem walk_sound (dirs : List Directive) (cfg : List Config) :
    ∀ (n : Nat) (path : String) (owner : SeqRef) (anc blocks : List Nat) (L : List Entry),
      walk dirs cfg n path owner anc blocks = Res.ok L →
      seqAt dirs cfg owner = Res.ok blocks →
      ∀ e, e ∈ L → Reaches dirs cfg path owner anc e := by
  intro n
  induction n with
  | zero => intro path owner anc blocks L h; simp [walk] at h
  | succ n ih =>
    intro path owner anc blocks L h hseq e he
    simp only [walk] at h
    obtain ⟨_, hmem⟩ := rangeCollect_ok _ blocks 0 L h
    obtain ⟨j, p, l, hj, hl, hel⟩ := (hmem e).1 he
    simp only [Nat.zero_add, Res.bind_eq_ok, at?_eq_ok] at hl
    obtain ⟨d, hd, hl⟩ := hl
    by_cases hc : d.Directive = "#"
    · simp only [hc, if_true, Res.ok.injEq] at hl
      subst hl
      simp at hel
    · by_cases hi : d.Directive = "include"
      · simp only [hc, hi, if_true, if_false] at hl
        obtain ⟨_, hmem2⟩ := rangeCollect_ok _ d.Includes 0 l hl
        obtain ⟨k, u, l2, hk, hl2, hel2⟩ := (hmem2 e).1 hel
        simp only [Res.bind_eq_ok, at?_eq_ok] at hl2
        obtain ⟨c, hcu, hl2⟩ := hl2
        exact Reaches.incl hseq hj hd hc hi (List.getElem?_mem hk)
          (ih path (SeqRef.unit u) [u] c.Parsed l2 hl2 (seqAt_unit hcu) e hel2)
      · simp only [hc, hi, if_false, Res.bind_eq_ok, Res.ok.injEq] at hl
        obtain ⟨l', hl', rfl⟩ := hl
        rcases List.mem_cons.1 hel with rfl | hel'
        · exact Reaches.here hseq hj hd hc hi
        · exact Reaches.child hseq hj hd hc hi
            (ih _ (SeqRef.block p) _ d.Block l' hl' (seqAt_block hd) e hel')

/-- Every node that is reached stands in the traversal list. -/
theorem walk_complete (dirs : List Directive) (cfg : List Config)
    {path : String} {owner : SeqRef} {anc : List Nat} {e : Entry}
    (hr : Reaches dirs cfg path owner anc e) :
    ∀ (n : Nat) (blocks : List Nat) (L : List Entry),
      walk dirs cfg n path owner anc blocks = Res.ok L →
      seqAt dirs cfg owner = Res.ok blocks → e ∈ L := by
  induction hr with
  | @here path owner anc blocks0 i p d hseq0 hi0 hd hc hi =>
    intro n blocks L h hseq
    rw [hseq0] at hseq
    cases hseq
    cases n with
    | zero => simp [walk] at h
    | succ n =>
      simp only [walk] at h
      obtain ⟨hok, hmem⟩ := rangeCollect_ok _ blocks0 0 L h
      obtain ⟨l, hl⟩ := hok i p hi0
      refine (hmem _).2 ⟨i, p, l, hi0, hl, ?_⟩
      simp only [Nat.zero_add, Res.bind_eq_ok, at?_eq_ok] at hl
      obtain ⟨d', hd', hl⟩ := hl
      rw [hd] at hd'
      cases hd'
      simp only [hc, hi, if_false, Res.bind_eq_ok, Res.ok.injEq] at hl
      obtain ⟨l', _, rfl⟩ := hl
      exact List.mem_cons_self _ _
  | @child path owner anc blocks0 i p d e hseq0 hi0 hd hc hi _ ih =>
    intro n blocks L h hseq
    rw [hseq0] at hseq
    cases hseq
    cases n with
    | zero => simp [walk] at h
    | succ n =>
      simp only [walk] at h
      obtain ⟨hok, hmem⟩ := rangeCollect_ok _ blocks0 0 L h
      obtain ⟨l, hl⟩ := hok i p hi0
      refine (hmem _).2 ⟨i, p, l, hi0, hl, ?_⟩
      simp only [Nat.zero_add, Res.bind_eq_ok, at?_eq_ok] at hl
      obtain ⟨d', hd', hl⟩ := hl
      rw [hd] at hd'
      cases hd'
      simp only [hc, hi, if_false, Res.bind_eq_ok, Res.ok.injEq] at hl
      obtain ⟨l', hl', rfl⟩ := hl
      exact List.mem_cons_of_mem _ (ih n d.Block l' hl' (seqAt_block hd))
  | @incl path owner anc blocks0 i p u d e hseq0 hi0 hd hc hi hu _ ih =>
    intro n blocks L h hseq
    rw [hseq0] at hseq
    cases hseq
    cases n with
    | zero => simp [walk] at h
    | succ n =>
      simp only [walk] at h
      obtain ⟨hok, hmem⟩ := rangeCollect_ok _ blocks0 0 L h
      obtain ⟨l, hl⟩ := hok i p hi0
      refine (hmem _).2 ⟨i, p, l, hi0, hl, ?_⟩
      simp only [Nat.zero_add, Res.bind_eq_ok, at?_eq_ok] at hl
      obtain ⟨d', hd', hl⟩ := hl
      rw [hd] at hd'
      cases hd'
      simp only [hc, hi, if_true, if_false] at hl
      obtain ⟨hok2, hmem2⟩ := rangeCollect_ok _ d.Includes 0 l hl
      obtain ⟨k, hk⟩ := List.getElem?_of_mem hu
      obtain ⟨l2, hl2⟩ := hok2 k u hk
      refine (hmem2 _).2 ⟨k, u, l2, hk, hl2, ?_⟩
      simp only [Res.bind_eq_ok, at?_eq_ok] at hl2
      obtain ⟨c, hcu, hl2⟩ := hl2
      exact ih n c.Parsed l2 hl2 (seqAt_unit hcu)

/-! ### Termination -/

theorem exists_bound {α : Type} (Q : α → Nat → Prop) :
    ∀ l : List α, (∀ x, x ∈ l → ∃ n, ∀ m, n ≤ m → Q x m) →
      ∃ n, ∀ m, n ≤ m → ∀ x, x ∈ l → Q x m := by
  intro l
  induction l with
  | nil => intro _; exact ⟨0, fun m _ x hx => by simp at hx⟩
  | cons a l ih =>
    intro h
    obtain ⟨n1, h1⟩ := h a (List.mem_cons_self a l)
    obtain ⟨n2, h2⟩ := ih (fun x hx => h x (List.mem_cons_of_mem a hx))
    refine ⟨max n1 n2, fun m hm x hx => ?_⟩
    rcases List.mem_cons.1 hx with rfl | hx
    · exact h1 m (le_trans (le_max_left _ _) hm)
    · exact h2 m (le_trans (le_max_right _ _) hm) x hx

/-- On a sequence that can be traversed to the end the traversal returns, for
every recursion budget from some bound on. -/
theorem walk_terminates (dirs : List Directive) (cfg : List Config) {owner : SeqRef}
    (h : Acyclic dirs cfg owner) :
    ∃ n, ∀ m, n ≤ m → ∀ (path : String) (anc blocks : List Nat),
      seqAt dirs cfg owner = Res.ok blocks →
      ∃ L, walk dirs cfg m path owner anc blocks = Res.ok L := by
  induction h with
  | @mk owner blocks0 hseq hvalid hchild hincl ihchild ihincl =>
    have hbody : ∀ p, p ∈ blocks0 → ∃ n, ∀ m, n ≤ m →
        ∀ (path : String) (anc : List Nat) (i : Nat), ∃ l,
          ((at? dirs p).bind fun d =>
            if d.Directive = "#" then Res.ok []
            else if d.Directive = "include" then
              rangeCollect (fun _ u =>
                (at? cfg u).bind fun c => walk dirs cfg m path (SeqRef.unit u) [u] c.Parsed)
                d.Includes 0
            else
              (walk dirs cfg m (path ++ pathSep ++ d.Name) (SeqRef.block p) (anc ++ [i])
                d.Block).bind
                fun l => Res.ok ((⟨path ++ pathSep ++ d.Name, owner, anc, i, p⟩ : Entry) :: l))
            = Res.ok l := by
      intro p hp
      have hlt := hvalid p hp
      have hd : dirs[p]? = some dirs[p] := List.getElem?_eq_getElem hlt
      have hat : at? dirs p = Res.ok dirs[p] := at?_eq_ok.2 hd
      by_cases hc : dirs[p].Directive = "#"
      · exact ⟨0, fun m _ path anc i => ⟨[], by rw [hat]; simp only [Res.bind_ok, hc, if_true]⟩⟩
      · by_cases hi : dirs[p].Directive = "include"
        · obtain ⟨n, hn⟩ := exists_bound
            (fun u m => ∀ path : String, ∃ l2,
              ((at? cfg u).bind fun c =>
                walk dirs cfg m path (SeqRef.unit u) [u] c.Parsed) = Res.ok l2)
            dirs[p].Includes (by
              intro u hu
              obtain ⟨n, hn⟩ := ihincl p dirs[p] u hp hd hc hi hu
              have hac := hincl p dirs[p] u hp hd hc hi hu
              cases hac with
              | @mk _ bl hs _ _ _ =>
                simp only [seqAt, Res.bind_eq_ok, at?_eq_ok, Res.ok.injEq] at hs
                obtain ⟨c, hcu, rfl⟩ := hs
                refine ⟨n, fun m hm path => ?_⟩
                obtain ⟨L, hL⟩ := hn m hm path [u] c.Parsed (seqAt_unit hcu)
                exact ⟨L, by rw [at?_eq_ok.2 hcu]; exact hL⟩)
          refine ⟨n, fun m hm path anc i => ?_⟩
          obtain ⟨L, hL⟩ := rangeCollect_exists
            (fun _ u => (at? cfg u).bind fun c =>
              walk dirs cfg m path (SeqRef.unit u) [u] c.Parsed) dirs[p].Includes 0
            (fun j u hj => hn m hm u (List.getElem?_mem hj) path)
          exact ⟨L, by rw [hat]; simp only [Res.bind_ok, hc, hi, if_true, if_false]; exact hL⟩
        · obtain ⟨n, hn⟩ := ihchild p dirs[p] hp hd hc hi
          refine ⟨n, fun m hm path anc i => ?_⟩
          obtain ⟨L, hL⟩ := hn m hm (path ++ pathSep ++ dirs[p].Name) (anc ++ [i])
            dirs[p].Block (seqAt_block hd)
          exact ⟨⟨path ++ pathSep ++ dirs[p].Name, owner, anc, i, p⟩ :: L, by
            rw [hat]; simp only [Res.bind_ok, hc, hi, if_false, hL]⟩
    obtain ⟨n, hn⟩ := exists_bound _ blocks0 hbody
    refine ⟨n + 1, fun m hm path anc blocks hs => ?_⟩
    rw [hseq] at hs
    cases hs
    obtain ⟨m', rfl⟩ : ∃ m', m = m' + 1 := ⟨m - 1, by omega⟩
    simp only [walk]
    exact rangeCollect_exists _ blocks0 0
      (fun j p hj => hn m' (by omega) p (List.getElem?_mem hj) path anc (0 + j))

/-- A traversal that returns shows that the sequence can be traversed to the
end. -/
theorem acyclic_of_walk (dirs : List Directive) (cfg : List Config) :
    ∀ (n : Nat) (path : String) (owner : SeqRef) (anc blocks : List Nat) (L : List Entry),
      walk dirs cfg n path owner anc blocks = Res.ok L →
      seqAt dirs cfg owner = Res.ok blocks → Acyclic dirs cfg owner := by
  intro n
  induction n with
  | zero => intro path owner anc blocks L h; simp [walk] at h
  | succ n ih =>
    intro path owner anc blocks L h hseq
    simp only [walk] at h
    obtain ⟨hok, _⟩ := rangeCollect_ok _ blocks 0 L h
    refine Acyclic.mk hseq ?_ ?_ ?_
    · intro p hp
      obtain ⟨j, hj⟩ := List.getElem?_of_mem hp
      obtain ⟨l, hl⟩ := hok j p hj
      simp only [Res.bind_eq_ok, at?_eq_ok] at hl
      obtain ⟨d, hd, _⟩ := hl
      exact (List.getElem?_eq_some.1 hd).1
    · intro p d hp hd hc hi
      obtain ⟨j, hj⟩ := List.getElem?_of_mem hp
      obtain ⟨l, hl⟩ := hok j p hj
      simp only [Res.bind_eq_ok, at?_eq_ok] at hl
      obtain ⟨d', hd', hl⟩ := hl
      rw [hd] at hd'
      cases hd'
      simp only [hc, hi, if_false, Res.bind_eq_ok, Res.ok.injEq] at hl
      obtain ⟨l', hl', _⟩ := hl
      exact ih _ _ _ _ l' hl' (seqAt_block hd)
    · intro p d u hp hd hc hi hu
      obtain ⟨j, hj⟩ := List.getElem?_of_mem hp
      obtain ⟨l, hl⟩ := hok j p hj
      simp only [Res.bind_eq_ok, at?_eq_ok] at hl
      obtain ⟨d', hd', hl⟩ := hl
      rw [hd] at hd'
      cases hd'
      simp only [hc, hi, if_true, if_false] at hl
      obtain ⟨hok2, _⟩ := rangeCollect_ok _ d.Includes 0 l hl
      obtain ⟨k, hk⟩ := List.getElem?_of_mem hu
      obtain ⟨l2, hl2⟩ := hok2 k u hk
      simp only [Res.bind_eq_ok, at?_eq_ok] at hl2
      obtain ⟨c, hcu, hl2⟩ := hl2
      exact ih _ _ _ _ l2 hl2 (seqAt_unit hcu)

/-! ### The index after `buildTree` -/

/-- Outcome of `NewTree` against the traversal of the specification: same way
of ending, the document untouched, and the index made of the entries of the
traversal inserted in order into the empty tree. -/
theorem build_spec (dirs : List Directive) (cfg : List Config) (m : Nat) :
    Res.rel (fun t L => t.dirs = dirs ∧ t.Payload = cfg ∧
        ∃ tr, t.tree = some tr ∧ PathMap.image WalkBack.view tr = indexOf Entry.view L [])
      (NewTree m dirs cfg) (traversal dirs cfg m) := by
  unfold NewTree buildTree traversal
  refine Res.rel_bind_same ?_
  intro c _
  refine Res.rel_bind_ok_left (inject_walk dirs cfg m "" (newSlice [] 0).2 (SeqRef.unit 0) [0]
    c.Parsed ⟨(newSlice [] 0).1, []⟩ rfl) ?_
  intro s L h
  exact ⟨rfl, rfl, _, rfl, by simpa [Tracks, PathMap.image] using h⟩

/-- What holds of every node reached by the traversal: it is an ordinary
directive cell and stands at its offset in the sequence at its owner. -/
theorem Reaches.facts {dirs : List Directive} {cfg : List Config} {path : String}
    {owner : SeqRef} {anc : List Nat} {e : Entry} (h : Reaches dirs cfg path owner anc e) :
    ∃ d l, dirs[e.node]? = some d ∧ d.Directive ≠ "#" ∧ d.Directive ≠ "include" ∧
      seqAt dirs cfg e.owner = Res.ok l ∧ l[e.off]? = some e.node := by
  induction h with
  | here hseq hi hd hc hinc => exact ⟨_, _, hd, hc, hinc, hseq, hi⟩
  | child _ _ _ _ _ _ ih => exact ih
  | incl _ _ _ _ _ _ _ ih => exact ih

theorem lastAt_some {L : List Entry} {key : String} {e : Entry} (h : lastAt L key = some e) :
    e ∈ L ∧ e.path = key := by
  unfold lastAt at h
  have := List.mem_of_getLast?_eq_some h
  simpa using this

theorem lastAt_isSome {L : List Entry} {e : Entry} (h : e ∈ L) :
    ∃ e', lastAt L e.path = some e' := by
  unfold lastAt
  have hm : e ∈ L.filter fun x => decide (x.path = e.path) := by simp [h]
  cases hl : (L.filter fun x => decide (x.path = e.path)).getLast? with
  | none =>
    rw [List.getLast?_eq_none_iff] at hl
    rw [hl] at hm
    simp at hm
  | some e' => exact ⟨e', rfl⟩

theorem traversal_sound {dirs : List Directive} {cfg : List Config} {m : Nat}
    {L : List Entry} (h : traversal dirs cfg m = Res.ok L) {e : Entry} (he : e ∈ L) :
    Reaches dirs cfg "" (SeqRef.unit 0) [0] e := by
  simp only [traversal, Res.bind_eq_ok, at?_eq_ok] at h
  obtain ⟨c, hc, h⟩ := h
  exact walk_sound dirs cfg m "" (SeqRef.unit 0) [0] c.Parsed L h (seqAt_unit hc) e he

theorem traversal_complete {dirs : List Directive} {cfg : List Config} {m : Nat}
    {L : List Entry} (h : traversal dirs cfg m = Res.ok L) {e : Entry}
    (he : Reaches dirs cfg "" (SeqRef.unit 0) [0] e) : e ∈ L := by
  simp only [traversal, Res.bind_eq_ok, at?_eq_ok] at h
  obtain ⟨c, hc, h⟩ := h
  exact walk_complete dirs cfg he m c.Parsed L h (seqAt_unit hc)

theorem traversal_terminates {dirs : List Directive} {cfg : List Config}
    (h : Acyclic dirs cfg (SeqRef.unit 0)) :
    ∃ n, ∀ m, n ≤ m → ∃ L, traversal dirs cfg m = Res.ok L := by
  obtain ⟨n, hn⟩ := walk_terminates dirs cfg h
  refine ⟨n, fun m hm => ?_⟩
  cases h with
  | @mk _ bl hs _ _ _ =>
    simp only [seqAt, Res.bind_eq_ok, at?_eq_ok, Res.ok.injEq] at hs
    obtain ⟨c, hcu, rfl⟩ := hs
    obtain ⟨L, hL⟩ := hn m hm "" [0] c.Parsed (seqAt_unit hcu)
    exact ⟨L, by simp only [traversal, at?_eq_ok.2 hcu, Res.bind_ok, hL]⟩

/-- After a build that returns, the record under a key is the view of the last
entry of the traversal with that path, and there is a record exactly when
there is such an entry. -/

theorem Get_of_record {fuel : Nat} {t : TreeMap} {tr : Radix} {s : String} {wb : WalkBack}
    {v : Value} (htr : t.tree = some tr) (hwb : PathMap.Get tr s = some wb)
    (hv : valueOf t.dirs wb.Directive = some v) :
    Get fuel t s = Res.ok (t, Except.ok v) := by
  unfold valueOf at hv
  cases hd : t.dirs[wb.Directive]? with
  | none => simp [hd] at hv
  | some b =>
    simp only [hd, Option.map_some', Option.some.injEq] at hv
    subst hv
    simp only [Get, htr, Res.bind_ok, hwb, at?_eq_ok.2 hd]
    split <;> rfl

theorem Get_of_no_record {fuel : Nat} {t : TreeMap} {tr : Radix} {s : String}
    (htr : t.tree = some tr) (hwb : PathMap.Get tr s = none) :
    Get fuel t s = Res.ok (t, Except.error (Err.notFound s)) := by
  simp only [Get, htr, Res.bind_ok, hwb]

/-! ### The first element of a stored ancestor path -/

theorem Res.rel_mono {α β : Type} {R R' : α → β → Prop} {x : Res α} {y : Res β}
    (h : Res.rel R x y) (hm : ∀ a b, R a b → R' a b) : Res.rel R' x y := by
  cases x <;> cases y <;> simp_all [Res.rel]

theorem ext_refl (a : List (List Nat)) : Ext a a :=
  fun _ x hx => ⟨x, hx, rfl, rfl⟩

theorem ext_trans {a b c : List (List Nat)} (h1 : Ext a b) (h2 : Ext b c) : Ext a c := by
  intro k x hx
  obtain ⟨y, hy, hl, hh⟩ := h1 k x hx
  obtain ⟨z, hz, hl2, hh2⟩ := h2 k y hy
  exact ⟨z, hz, hl2.trans hl, hh2.trans hh⟩

theorem ext_lt {a b : List (List Nat)} (h : Ext a b) {k : Nat} (hk : k < a.length) :
    k < b.length := by
  obtain ⟨y, hy, _, _⟩ := h k a[k] (List.getElem?_eq_getElem hk)
  exact (List.getElem?_eq_some.1 hy).1

theorem ext_append (a : List (List Nat)) (x : List Nat) : Ext a (a ++ [x]) := by
  intro k y hy
  refine ⟨y, ?_, rfl, rfl⟩
  rw [List.getElem?_append_left (List.getElem?_eq_some.1 hy).1]
  exact hy

theorem ext_set {a : List (List Nat)} {k0 : Nat} {x0 y0 : List Nat} (h0 : a[k0]? = some x0)
    (hl : y0.length = x0.length) (hh : y0.head? = x0.head?) : Ext a (a.set k0 y0) := by
  intro k x hx
  by_cases hk : k0 = k
  · subst hk
    rw [h0] at hx
    cases hx
    exact ⟨y0, by simp [List.getElem?_set, (List.getElem?_eq_some.1 h0).1], hl, hh⟩
  · exact ⟨x, by rw [List.getElem?_set_ne hk]; exact hx, rfl, rfl⟩

theorem head?_set_pos (a : List Nat) (n v : Nat) (hn : 1 ≤ n) :
    (a.set n v).head? = a.head? := by
  cases a with
  | nil => rfl
  | cons x a =>
    cases n with
    | zero => omega
    | succ n => rfl

theorem getD_of_lt_length {ints : List (List Nat)} {k n : Nat}
    (h : n < (ints.getD k []).length) : ints[k]? = some (ints.getD k []) := by
  rw [List.getD_eq_getElem?_getD] at h ⊢
  cases hk : ints[k]? with
  | none => simp [hk] at h
  | some a => simp

theorem ext_appendInt (ints : List (List Nat)) (s : IntSlice) (v : Nat) (hs : 1 ≤ s.len) :
    Ext ints (appendInt ints s v).1 := by
  simp only [appendInt]
  split
  · rename_i hlt
    exact ext_set (getD_of_lt_length hlt) (by simp) (head?_set_pos _ _ _ hs)
  · exact ext_append _ _

theorem sliceOK_ext {a b : List (List Nat)} {index : IntSlice} {anc : List Nat}
    (h : SliceOK a index anc) (he : Ext a b) : SliceOK b index anc := by
  obtain ⟨x, hx, h1, h2, h3, h4⟩ := h
  obtain ⟨y, hy, hl, hh⟩ := he _ x hx
  exact ⟨y, hy, h1, by omega, h3, hh.trans h4⟩

theorem sliceOK_newSlice (ints : List (List Nat)) (u : Nat) :
    SliceOK (newSlice ints u).1 (newSlice ints u).2 [u] :=
  ⟨[u], by simp [newSlice], by simp [newSlice], by simp [newSlice], by simp [newSlice], rfl⟩

theorem head?_append_singleton (anc : List Nat) (i : Nat) (h : 1 ≤ anc.length) :
    (anc ++ [i]).head? = anc.head? := by
  cases anc with
  | nil => simp at h
  | cons x anc => rfl

theorem sliceOK_appendInt {ints : List (List Nat)} {s : IntSlice} {anc : List Nat} (i : Nat)
    (h : SliceOK ints s anc) :
    SliceOK (appendInt ints s i).1 (appendInt ints s i).2 (anc ++ [i]) := by
  obtain ⟨a, ha, h1, h2, h3, h4⟩ := h
  have hget : ints.getD s.arr [] = a := by simp [ha]
  have hlt : s.arr < ints.length := (List.getElem?_eq_some.1 ha).1
  have hanc : (anc ++ [i]).head? = anc.head? := head?_append_singleton anc i (by omega)
  simp only [appendInt, hget]
  split
  · rename_i hl
    refine ⟨a.set s.len i, by simp [List.getElem?_set, hlt], by simp, by simp; omega,
      by simp [h3], ?_⟩
    rw [head?_set_pos _ _ _ h1, hanc]
    exact h4
  · rename_i hl
    have hlen : s.len = a.length := by omega
    refine ⟨a.take s.len ++ i :: List.replicate (growCap a.length - (s.len + 1)) 0,
      by simp, by simp, by simp; omega, by simp [h3], ?_⟩
    rw [hanc, ← h4, hlen, List.take_length]
    cases a with
    | nil => simp at hlen; omega
    | cons x a => rfl

theorem head_stable {a b : List (List Nat)} (he : Ext a b) (r : WalkBack)
    (hr : r.Indicies.arr < a.length) : WalkBack.head b r = WalkBack.head a r := by
  obtain ⟨y, hy, hl, hh⟩ := he _ _ (List.getElem?_eq_getElem hr)
  simp only [WalkBack.head, hy, List.getElem?_eq_getElem hr, hl, hh]

theorem image_head_ext {a b : List (List Nat)} (he : Ext a b) (t : Radix)
    (ht : ∀ e, e ∈ t → e.2.Indicies.arr < a.length) :
    PathMap.image (WalkBack.head b) t = PathMap.image (WalkBack.head a) t := by
  unfold PathMap.image
  apply List.map_congr_left
  intro e hm
  rw [head_stable he e.2 (ht e hm)]

theorem head_of_sliceOK {b : List (List Nat)} {index : IntSlice} {anc : List Nat}
    (h : SliceOK b index anc) (path : String) (owner : SeqRef) (i p : Nat) :
    WalkBack.head b ⟨index, i, p⟩ = Entry.head ⟨path, owner, anc, i, p⟩ := by
  obtain ⟨a, ha, h1, h2, _, h4⟩ := h
  simp [WalkBack.head, Entry.head, ha, h1, h2, h4]

theorem PathMap.mem_Insert {α : Type} (t : PathMap α) (k : String) (v : α) (e : String × α)
    (h : e ∈ PathMap.Insert t k v) : e ∈ t ∨ e = (k, v) := by
  induction t with
  | nil => simpa [PathMap.Insert] using h
  | cons x t ih =>
    obtain ⟨k', w⟩ := x
    by_cases hk : k' = k
    · simp only [PathMap.Insert, hk, if_true, List.mem_cons] at h
      rcases h with h | h
      · exact Or.inr h
      · exact Or.inl (List.mem_cons_of_mem _ h)
    · simp only [PathMap.Insert, hk, if_false, List.mem_cons] at h
      rcases h with h | h
      · exact Or.inl (by rw [h]; exact List.mem_cons_self _ _)
      · rcases ih h with h | h
        · exact Or.inl (List.mem_cons_of_mem _ h)
        · exact Or.inr h

theorem tracksHead_refl (index : IntSlice) (anc : List Nat) (s : Idx) :
    TracksHead index anc s s [] :=
  fun hS _ => ⟨hS, ext_refl _, rfl⟩

theorem tracksHead_trans (index : IntSlice) (anc : List Nat) (s s1 s2 : Idx)
    (l r : List Entry) (h1 : TracksHead index anc s s1 l) (h2 : TracksHead index anc s1 s2 r) :
    TracksHead index anc s s2 (l ++ r) := by
  intro hS hOK
  obtain ⟨hS1, he1, heq1⟩ := h1 hS hOK
  obtain ⟨hS2, he2, heq2⟩ := h2 hS1 (sliceOK_ext hOK he1)
  refine ⟨hS2, ext_trans he1 he2, ?_⟩
  rw [indexOf_append, heq2, image_head_ext he2 s1.tree hS1, heq1,
    image_head_ext he2 s.tree (fun e he => ext_lt he1 (hS e he))]

/-- Companion of `inject_walk` for the content of the stored ancestor paths:
their first element and their length within the backing array. -/
theorem inject_walk_heads (dirs : List Directive) (cfg : List Config) :
    ∀ (n : Nat) (path : String) (index : IntSlice) (owner : SeqRef) (anc blocks : List Nat)
      (s : Idx),
      Res.rel (TracksHead index anc s) (inject dirs cfg n path index blocks s)
        (walk dirs cfg n path owner anc blocks) := by
  intro n
  induction n with
  | zero => intros; simp [inject, walk, Res.rel]
  | succ n ih =>
    intro path index owner anc blocks s
    simp only [inject, walk]
    refine rangeLoop_rel (TracksHead index anc) (tracksHead_refl index anc)
      (tracksHead_trans index anc) _ _ _ ?_ 0 s
    intro i p s _
    refine Res.rel_bind_same ?_
    intro d _
    by_cases hc : d.Directive = "#"
    · simpa [hc, Res.rel] using tracksHead_refl index anc s
    · by_cases hi : d.Directive = "include"
      · simp only [hc, hi, if_true, if_false]
        refine rangeLoop_rel (TracksHead index anc) (tracksHead_refl index anc)
          (tracksHead_trans index anc) _ _ _ ?_ 0 s
        intro _ u s _
        refine Res.rel_bind_same ?_
        intro c _
        refine Res.rel_mono (ih path (newSlice s.ints u).2 (SeqRef.unit u) [u] c.Parsed
          ⟨(newSlice s.ints u).1, s.tree⟩) ?_
        intro s' L h hS hOK
        have he0 : Ext s.ints (newSlice s.ints u).1 := ext_append _ _
        obtain ⟨hS', he, heq⟩ := h (fun e he => ext_lt he0 (hS e he)) (sliceOK_newSlice s.ints u)
        exact ⟨hS', ext_trans he0 he, heq⟩
      · simp only [hc, hi, if_false]
        refine Res.rel_bind_ok_right
          (ih (path ++ pathSep ++ d.Name) (appendInt s.ints index i).2 (SeqRef.block p)
            (anc ++ [i]) d.Block
            ⟨(appendInt s.ints index i).1,
              PathMap.Insert s.tree (path ++ pathSep ++ d.Name) ⟨index, i, p⟩⟩) ?_
        intro s2 l h hS hOK
        obtain ⟨a, ha, h1, _⟩ := id hOK
        have he0 : Ext s.ints (appendInt s.ints index i).1 := ext_appendInt _ _ _ h1
        have hS1 : Stored ⟨(appendInt s.ints index i).1,
            PathMap.Insert s.tree (path ++ pathSep ++ d.Name) ⟨index, i, p⟩⟩ := by
          intro e he
          rcases PathMap.mem_Insert _ _ _ _ he with he | he
          · exact ext_lt he0 (hS e he)
          · rw [he]
            exact ext_lt he0 (List.getElem?_eq_some.1 ha).1
        obtain ⟨hS2, he, heq⟩ := h hS1 (sliceOK_appendInt i hOK)
        refine ⟨hS2, ext_trans he0 he, ?_⟩
        rw [heq, PathMap.image_Insert, indexOf_cons,
          head_of_sliceOK (sliceOK_ext hOK (ext_trans he0 he)) (path ++ pathSep ++ d.Name) owner i p]

theorem build_heads (dirs : List Directive) (cfg : List Config) (m : Nat) :
    Res.rel (fun t L => ∃ tr, t.tree = some tr ∧
        PathMap.image (WalkBack.head t.ints) tr = indexOf Entry.head L [])
      (NewTree m dirs cfg) (traversal dirs cfg m) := by
  unfold NewTree buildTree traversal
  refine Res.rel_bind_same ?_
  intro c _
  refine Res.rel_bind_ok_left (inject_walk_heads dirs cfg m "" (newSlice [] 0).2 (SeqRef.unit 0)
    [0] c.Parsed ⟨(newSlice [] 0).1, []⟩) ?_
  intro s L h
  obtain ⟨_, _, heq⟩ := h (fun e he => by simp at he) (sliceOK_newSlice [] 0)
  exact ⟨_, rfl, by simpa [PathMap.image] using heq⟩

/-- From the first element and the bounds of a stored ancestor path to what is
read from memory. -/
theorem readSlice_of_head {ints : List (List Nat)} {r : WalkBack} {e : Entry}
    (h1 : WalkBack.head ints r = Entry.head e) (h2 : r.Indicies.len = e.anc.length) :
    (readSlice ints r.Indicies).length = e.anc.length ∧
      (readSlice ints r.Indicies).head? = e.anc.head? := by
  unfold WalkBack.head Entry.head at h1
  cases ha : ints[r.Indicies.arr]? with
  | none => simp [ha] at h1
  | some a =>
    simp only [ha, Prod.mk.injEq, decide_eq_true_eq] at h1
    obtain ⟨hh, hl1, hl2⟩ := h1
    have hne : r.Indicies.len ≠ 0 := by omega
    simp only [readSlice, List.getD_eq_getElem?_getD, ha, Option.getD_some, List.length_take,
      List.head?_take, hne, if_false]
    exact ⟨by omega, hh⟩

theorem build_records {dirs : List Directive} {cfg : List Config} {m : Nat}
    {L : List Entry} (h : traversal dirs cfg m = Res.ok L) :
    ∃ t tr, NewTree m dirs cfg = Res.ok t ∧ t.dirs = dirs ∧ t.Payload = cfg ∧
      t.tree = some tr ∧
      ∀ key, (PathMap.Get tr key).map WalkBack.view = (lastAt L key).map Entry.view := by
  have hb := build_spec dirs cfg m
  rw [h] at hb
  obtain ⟨t, ht, hd, hp, tr, htr, him⟩ := Res.rel_ok_right hb
  refine ⟨t, tr, ht, hd, hp, htr, fun key => ?_⟩
  rw [← PathMap.Get_image, him, Get_indexOf]
  cases lastAt L key <;> simp [PathMap.Get]

/-- After a build that returns, the ancestor path stored in the record under a
key has the length and the first element of the ancestor path of the last
entry of the traversal with that path. -/
theorem build_record_paths {dirs : List Directive} {cfg : List Config} {m : Nat}
    {L : List Entry} (h : traversal dirs cfg m = Res.ok L) {t : TreeMap} {tr : Radix}
    (ht : NewTree m dirs cfg = Res.ok t) (htr : t.tree = some tr) {key : String}
    {r : WalkBack} {e : Entry} (hr : PathMap.Get tr key = some r)
    (he : lastAt L key = some e) :
    (readSlice t.ints r.Indicies).length = e.anc.length ∧
      (readSlice t.ints r.Indicies).head? = e.anc.head? := by
  have hb := build_heads dirs cfg m
  rw [h, ht] at hb
  obtain ⟨tr', htr', him⟩ := hb
  rw [htr] at htr'
  cases htr'
  have h1 : (PathMap.Get tr key).map (WalkBack.head t.ints) = some e.head := by
    rw [← PathMap.Get_image, him, Get_indexOf, he]
  obtain ⟨t0, tr0, ht0, _, _, htr0, hrec⟩ := build_records h
  rw [ht] at ht0
  cases ht0
  rw [htr] at htr0
  cases htr0
  have h2 := hrec key
  rw [hr, he] at h2
  rw [hr] at h1
  simp only [Option.map_some', Option.some.injEq, WalkBack.view, Entry.view,
    Prod.mk.injEq] at h1 h2
  exact readSlice_of_head h1 h2.1

theorem acyclic_of_traversal {dirs : List Directive} {cfg : List Config} {n : Nat}
    {L : List Entry} (h : traversal dirs cfg n = Res.ok L) :
    Acyclic dirs cfg (SeqRef.unit 0) := by
  simp only [traversal, Res.bind_eq_ok, at?_eq_ok] at h
  obtain ⟨c, hc, h⟩ := h
  exact acyclic_of_walk dirs cfg n "" (SeqRef.unit 0) [0] c.Parsed L h (seqAt_unit hc)

theorem includeDoc_acyclic : Acyclic includeDirs includeCfg (SeqRef.unit 0) :=
  acyclic_of_traversal (n := 3)
    (L := [⟨"/gzip", SeqRef.unit 1, [1], 0, 3⟩, ⟨"/server", SeqRef.unit 0, [0], 1, 1⟩,
      ⟨"/server/listen", SeqRef.block 1, [0, 1], 0, 2⟩]) (by decide)

theorem twinDoc_acyclic : Acyclic twinDirs twinCfg (SeqRef.unit 0) :=
  acyclic_of_traversal (n := 2)
    (L := [⟨"/listen", SeqRef.unit 0, [0], 0, 0⟩, ⟨"/listen", SeqRef.unit 0, [0], 1, 1⟩])
    (by decide)

/-! ### Claims about the index after the build -/

/-- C2.  For every document whose traversal from unit 0 is finite and in range,
`NewTree` returns (for every recursion budget from some bound on) and the set of
indexed paths is exactly the set of path strings of the ordinary nodes reached
by the depth-first traversal: every reached node has a record under its path
string, and every record stands under the path string of a reached node,
names that node with its offset, holds an ancestor path with the length and
the first element (the unit) of the ancestor path of that node, so `[unit]` for
the top-level nodes of a unit, and that node is neither a comment nor an
include directive. -/
theorem build_indexes_exactly_reached_paths (dirs : List Directive) (cfg : List Config)
    (hac : Acyclic dirs cfg (SeqRef.unit 0)) :
    ∃ n, ∀ m, n ≤ m → ∃ t tr, NewTree m dirs cfg = Res.ok t ∧ t.tree = some tr ∧
      (∀ e, Reaches dirs cfg "" (SeqRef.unit 0) [0] e → ∃ r, PathMap.Get tr e.path = some r) ∧
      (∀ key r, PathMap.Get tr key = some r →
        ∃ e d, Reaches dirs cfg "" (SeqRef.unit 0) [0] e ∧ e.path = key ∧
          r.Directive = e.node ∧ r.Index = e.off ∧
          (readSlice t.ints r.Indicies).length = e.anc.length ∧
          (readSlice t.ints r.Indicies).head? = e.anc.head? ∧
          dirs[e.node]? = some d ∧ d.Directive ≠ "#" ∧ d.Directive ≠ "include") := by
  obtain ⟨n, hn⟩ := traversal_terminates hac
  refine ⟨n, fun m hm => ?_⟩
  obtain ⟨L, hL⟩ := hn m hm
  obtain ⟨t, tr, ht, _, _, htr, hrec⟩ := build_records hL
  refine ⟨t, tr, ht, htr, ?_, ?_⟩
  · intro e he
    obtain ⟨e', he'⟩ := lastAt_isSome (traversal_complete hL he)
    have h := hrec e.path
    rw [he'] at h
    cases hg : PathMap.Get tr e.path with
    | none => simp [hg] at h
    | some r => exact ⟨r, rfl⟩
  · intro key r hr
    have h := hrec key
    rw [hr] at h
    cases hl : lastAt L key with
    | none => simp [hl] at h
    | some e =>
      rw [hl] at h
      simp only [Option.map_some', Option.some.injEq, WalkBack.view, Entry.view,
        Prod.mk.injEq] at h
      obtain ⟨hmem, hpath⟩ := lastAt_some hl
      have hreach := traversal_sound hL hmem
      obtain ⟨d, _, hd, hc, hi, _, _⟩ := hreach.facts
      obtain ⟨hlen, hhead⟩ := build_record_paths hL ht htr hr hl
      exact ⟨e, d, hreach, hpath, h.2.2, h.2.1, hlen, hhead, hd, hc, hi⟩

/-- C2, on the document with an inclusion: unit 0 is
`include conf.d/gzip.conf; server { listen 80; }` and unit 1 is `gzip on; # compression`. -/
theorem build_indexes_exactly_reached_paths_witness :
    ∃ n, ∀ m, n ≤ m → ∃ t tr, NewTree m includeDirs includeCfg = Res.ok t ∧ t.tree = some tr ∧
      (∀ e, Reaches includeDirs includeCfg "" (SeqRef.unit 0) [0] e →
        ∃ r, PathMap.Get tr e.path = some r) ∧
      (∀ key r, PathMap.Get tr key = some r →
        ∃ e d, Reaches includeDirs includeCfg "" (SeqRef.unit 0) [0] e ∧ e.path = key ∧
          r.Directive = e.node ∧ r.Index = e.off ∧
          (readSlice t.ints r.Indicies).length = e.anc.length ∧
          (readSlice t.ints r.Indicies).head? = e.anc.head? ∧
          includeDirs[e.node]? = some d ∧ d.Directive ≠ "#" ∧ d.Directive ≠ "include") :=
  build_indexes_exactly_reached_paths includeDirs includeCfg includeDoc_acyclic

set_option maxRecDepth 100000 in
/-- C3 (counterexample).  In the document `listen 80; listen 443;` the first node
is reached by the traversal with path string `/listen` and its value is `80`, yet
after the build `Get("/listen")` returns `443`, the value of its later sibling. -/
theorem get_returns_later_twin :
    Reaches twinDirs twinCfg "" (SeqRef.unit 0) [0] ⟨"/listen", SeqRef.unit 0, [0], 0, 0⟩ ∧
    valueOf twinDirs 0 = some (Value.str "80") ∧
    (NewTree 2 twinDirs twinCfg).bind (fun t => getValue 2 t "/listen")
      = Res.ok (Except.ok (Value.str "443")) := by
  refine ⟨?_, by decide, by rfl⟩
  exact @Reaches.here twinDirs twinCfg "" (SeqRef.unit 0) [0] [0, 1] 0 0
    ⟨"listen", ["80"], [], []⟩ rfl rfl rfl (by decide) (by decide)

/-- C3 (amended).  For every document whose traversal from unit 0 is finite and
in range, `NewTree` returns and, for every ordinary node `N` of the traversal,
`Get` on the path string of `N` succeeds and returns the value of the last node of
the traversal that has this path string: its arguments joined with `-` when it
has at least one, the node itself otherwise.  This is the value of `N` whenever
no later node shares the path string of `N`. -/
theorem get_after_build (dirs : List Directive) (cfg : List Config)
    (hac : Acyclic dirs cfg (SeqRef.unit 0)) :
    ∃ n, ∀ m, n ≤ m → ∃ t L, NewTree m dirs cfg = Res.ok t ∧ traversal dirs cfg m = Res.ok L ∧
      ∀ e, e ∈ L → ∃ e' v, lastAt L e.path = some e' ∧ valueOf dirs e'.node = some v ∧
        Get m t e.path = Res.ok (t, Except.ok v) ∧
        (lastAt L e.path = some e → valueOf dirs e.node = some v) := by
  obtain ⟨n, hn⟩ := traversal_terminates hac
  refine ⟨n, fun m hm => ?_⟩
  obtain ⟨L, hL⟩ := hn m hm
  obtain ⟨t, tr, ht, hdirs, _, htr, hrec⟩ := build_records hL
  refine ⟨t, L, ht, hL, fun e he => ?_⟩
  obtain ⟨e', he'⟩ := lastAt_isSome he
  have h := hrec e.path
  rw [he'] at h
  cases hg : PathMap.Get tr e.path with
  | none => simp [hg] at h
  | some r =>
    rw [hg] at h
    simp only [Option.map_some', Option.some.injEq, WalkBack.view, Entry.view,
      Prod.mk.injEq] at h
    obtain ⟨d, _, hd, _, _, _, _⟩ := (traversal_sound hL (lastAt_some he').1).facts
    have hv : valueOf dirs e'.node = some
        (if 0 < d.Args.length then Value.str (String.intercalate "-" d.Args)
          else Value.node e'.node) := by
      simp [valueOf, hd]
    refine ⟨e', _, he', hv, ?_, ?_⟩
    · refine Get_of_record htr hg ?_
      rw [hdirs, h.2.2]
      exact hv
    · intro hee
      rw [he'] at hee
      cases hee
      exact hv

/-- C3 (amended), on the document with an inclusion. -/
theorem get_after_build_witness :
    ∃ n, ∀ m, n ≤ m → ∃ t L, NewTree m includeDirs includeCfg = Res.ok t ∧
      traversal includeDirs includeCfg m = Res.ok L ∧
      ∀ e, e ∈ L → ∃ e' v, lastAt L e.path = some e' ∧
        valueOf includeDirs e'.node = some v ∧
        Get m t e.path = Res.ok (t, Except.ok v) ∧
        (lastAt L e.path = some e → valueOf includeDirs e.node = some v) :=
  get_after_build includeDirs includeCfg includeDoc_acyclic

/-- The entry of a traversal that no later entry shares its path with is the
last one with that path. -/
theorem lastAt_split (L1 L2 : List Entry) (e : Entry) (h : ∀ x ∈ L2, x.path ≠ e.path) :
    lastAt (L1 ++ e :: L2) e.path = some e := by
  unfold lastAt
  have h2 : (L2.filter fun x => decide (x.path = e.path)) = [] := by
    rw [List.filter_eq_nil_iff]
    intro x hx
    simpa using h x hx
  rw [List.filter_append, List.filter_cons_of_pos (by simp), h2]
  simp

theorem rangeCollect_later {α β : Type} (g : Nat → α → Res (List β)) :
    ∀ (xs : List α) (k : Nat) (r : List β), rangeCollect g xs k = Res.ok r →
      ∀ j y, xs[j]? = some y → ∃ l C1 C2, g (k + j) y = Res.ok l ∧ r = C1 ++ l ++ C2 := by
  intro xs
  induction xs with
  | nil => intro k r _ j y hj; simp at hj
  | cons x xs ih =>
    intro k r h j y hj
    simp only [rangeCollect, Res.bind_eq_ok, Res.ok.injEq] at h
    obtain ⟨l, hl, r', hr, rfl⟩ := h
    cases j with
    | zero =>
      simp only [List.getElem?_cons_zero, Option.some.injEq] at hj
      subst hj
      exact ⟨l, [], r', hl, by simp⟩
    | succ j =>
      simp only [List.getElem?_cons_succ] at hj
      obtain ⟨l', C1, C2, hl', rfl⟩ := ih (k + 1) r' hr j y hj
      refine ⟨l', l ++ C1, C2, ?_, by simp⟩
      rw [← hl']; congr 1; omega

/-- The list gathered by a `range` loop, split at the round that produced one of
its elements: every later round put its list behind. -/
theorem rangeCollect_mem_split {α β : Type} (g : Nat → α → Res (List β)) :
    ∀ (xs : List α) (k : Nat) (L : List β), rangeCollect g xs k = Res.ok L →
      ∀ e, e ∈ L → ∃ i x l A C, xs[i]? = some x ∧ g (k + i) x = Res.ok l ∧ e ∈ l ∧
        L = A ++ l ++ C ∧
        ∀ j y, i < j → xs[j]? = some y →
          ∃ l' C1 C2, g (k + j) y = Res.ok l' ∧ C = C1 ++ l' ++ C2 := by
  intro xs
  induction xs with
  | nil =>
    intro k L h e he
    simp only [rangeCollect, Res.ok.injEq] at h
    subst h
    simp at he
  | cons x xs ih =>
    intro k L h e he
    simp only [rangeCollect, Res.bind_eq_ok, Res.ok.injEq] at h
    obtain ⟨l, hl, r, hr, rfl⟩ := h
    rcases List.mem_append.1 he with hel | her
    · refine ⟨0, x, l, [], r, by simp, hl, hel, by simp, ?_⟩
      intro j y hj hy
      cases j with
      | zero => omega
      | succ j =>
        simp only [List.getElem?_cons_succ] at hy
        obtain ⟨l', C1, C2, hl', hC⟩ := rangeCollect_later g xs (k + 1) r hr j y hy
        refine ⟨l', C1, C2, ?_, hC⟩
        rw [← hl']; congr 1; omega
    · obtain ⟨i, x', l', A, C, hi, hl', hel, rfl, hC⟩ := ih (k + 1) r hr e her
      refine ⟨i + 1, x', l', l ++ A, C, by simpa using hi, ?_, hel, by simp, ?_⟩
      · rw [← hl']; congr 1; omega
      · intro j y hj hy
        cases j with
        | zero => omega
        | succ j =>
          simp only [List.getElem?_cons_succ] at hy
          obtain ⟨l2, C1, C2, hl2, hC2⟩ := hC j y (by omega) hy
          refine ⟨l2, C1, C2, ?_, hC2⟩
          rw [← hl2]; congr 1; omega

/-- The traversal meets a sibling with the same name key, standing at a later
offset of the same sequence, after the earlier one and under the same path. -/
theorem walk_twin_order (dirs : List Directive) (cfg : List Config) :
    ∀ (n : Nat) (path : String) (owner : SeqRef) (anc blocks : List Nat) (L : List Entry),
      walk dirs cfg n path owner anc blocks = Res.ok L →
      seqAt dirs cfg owner = Res.ok blocks →
      ∀ e1, e1 ∈ L → ∀ (bl : List Nat) (j q : Nat) (d1 d2 : Crossplane.Directive),
        seqAt dirs cfg e1.owner = Res.ok bl → bl[j]? = some q → e1.off < j →
        dirs[e1.node]? = some d1 → dirs[q]? = some d2 → d2.Name = d1.Name →
        ∃ A B C, L = A ++ e1 :: B ++ ⟨e1.path, e1.owner, e1.anc, j, q⟩ :: C := by
  intro n
  induction n with
  | zero => intro path owner anc blocks L h; simp [walk] at h
  | succ n ih =>
    intro path owner anc blocks L h hseq e1 he bl j q d1 d2 hbl hj hlt hd1 hd2 hname
    simp only [walk] at h
    obtain ⟨i, p, l, A, C, hi, hl, hel, rfl, hC⟩ :=
      rangeCollect_mem_split _ blocks 0 L h e1 he
    simp only [Nat.zero_add, Res.bind_eq_ok, at?_eq_ok] at hl
    obtain ⟨d, hd, hl⟩ := hl
    by_cases hc : d.Directive = "#"
    · simp only [hc, if_true, Res.ok.injEq] at hl
      subst hl
      simp at hel
    · by_cases hinc : d.Directive = "include"
      · simp only [hc, hinc, if_true, if_false] at hl
        obtain ⟨k, u, l2, A2, C2, hk, hl2, hel2, rfl, _⟩ :=
          rangeCollect_mem_split _ d.Includes 0 l hl e1 hel
        simp only [Nat.zero_add, Res.bind_eq_ok, at?_eq_ok] at hl2
        obtain ⟨c, hcu, hl2⟩ := hl2
        obtain ⟨A3, B3, C3, rfl⟩ := ih path (SeqRef.unit u) [u] c.Parsed l2 hl2
          (seqAt_unit hcu) e1 hel2 bl j q d1 d2 hbl hj hlt hd1 hd2 hname
        exact ⟨A ++ A2 ++ A3, B3, C3 ++ C2 ++ C, by simp⟩
      · simp only [hc, hinc, if_false, Res.bind_eq_ok, Res.ok.injEq] at hl
        obtain ⟨chL, hch, rfl⟩ := hl
        rcases List.mem_cons.1 hel with rfl | hin
        · simp only at hbl hlt hd1
          have hb : bl = blocks := by
            rw [hseq] at hbl
            exact (Res.ok.inj hbl).symm
          have hdd : d1 = d := Option.some.inj (hd1.symm.trans hd)
          rw [hb] at hj
          rw [hdd] at hname
          obtain ⟨l', C1, C2, hl', rfl⟩ := hC j q hlt hj
          simp only [Nat.zero_add, Res.bind_eq_ok, at?_eq_ok] at hl'
          obtain ⟨d', hd', hl'⟩ := hl'
          have hd2' : d' = d2 := Option.some.inj (hd'.symm.trans hd2)
          rw [hd2'] at hl'
          have hdir : d2.Directive = d.Directive := hname
          simp only [hdir, hc, hinc, if_false, Res.bind_eq_ok, Res.ok.injEq] at hl'
          obtain ⟨ch2, _, rfl⟩ := hl'
          exact ⟨A, chL ++ C1, ch2 ++ C2, by simp [hname]⟩
        · obtain ⟨A3, B3, C3, rfl⟩ := ih _ (SeqRef.block p) _ d.Block chL hch
            (seqAt_block hd) e1 hin bl j q d1 d2 hbl hj hlt hd1 hd2 hname
          exact ⟨A ++ ⟨path ++ pathSep ++ d.Name, owner, anc, i, p⟩ :: A3, B3, C3 ++ C,
            by simp⟩

/-- C4.  Last write wins: for every document whose traversal from unit 0 is
finite and in range, the traversal returns for every recursion budget from
some bound on, and whenever it returns the list `L` of the traversed nodes,
`NewTree` returns with the same budget and leaves the cells and the units of
the document as they were.  A path is indexed exactly when some node of `L` has
that path string: a path of no node has no record and `Get` reports it as not
found, and under the path of a node there is a record, which is the one of the
last node of `L` with that path string (its node, its offset, the length and
the first element of its ancestor path), and `Get` on the path returns the value
of that node.  So of the nodes that share a path, `Get` returns the value of the
one that no later node of the traversal shares the path with.  For two
siblings with the same name key (two offsets of one sequence, the earlier one
traversed), the traversal meets the later one after the earlier one and under
the same path, and unless a node met after the later one has that path again,
the record under the shared path names the later sibling and `Get` returns its
value; both stay in the document. -/
theorem build_last_write_wins (dirs : List Directive) (cfg : List Config)
    (hac : Acyclic dirs cfg (SeqRef.unit 0)) :
    (∃ n, ∀ m, n ≤ m → ∃ L, traversal dirs cfg m = Res.ok L) ∧
    ∀ m L, traversal dirs cfg m = Res.ok L →
      ∃ t tr, NewTree m dirs cfg = Res.ok t ∧ t.tree = some tr ∧
        t.dirs = dirs ∧ t.Payload = cfg ∧
        (∀ key, lastAt L key = none →
          PathMap.Get tr key = none ∧
          Get m t key = Res.ok (t, Except.error (Err.notFound key))) ∧
        (∀ key e, lastAt L key = some e →
          ∃ r v, PathMap.Get tr key = some r ∧ r.Directive = e.node ∧ r.Index = e.off ∧
            (readSlice t.ints r.Indicies).length = e.anc.length ∧
            (readSlice t.ints r.Indicies).head? = e.anc.head? ∧
            valueOf dirs e.node = some v ∧ Get m t key = Res.ok (t, Except.ok v)) ∧
        (∀ L1 e L2, L = L1 ++ e :: L2 → (∀ x ∈ L2, x.path ≠ e.path) →
          ∃ r v, PathMap.Get tr e.path = some r ∧ r.Directive = e.node ∧ r.Index = e.off ∧
            valueOf dirs e.node = some v ∧ Get m t e.path = Res.ok (t, Except.ok v)) ∧
        (∀ e1 bl j q d1 d2, e1 ∈ L → seqAt dirs cfg e1.owner = Res.ok bl →
          bl[j]? = some q → e1.off < j → dirs[e1.node]? = some d1 → dirs[q]? = some d2 →
          d2.Name = d1.Name →
          ∃ A B C, L = A ++ e1 :: B ++ ⟨e1.path, e1.owner, e1.anc, j, q⟩ :: C ∧
            ((∀ x ∈ C, x.path ≠ e1.path) →
              ∃ r v, PathMap.Get tr e1.path = some r ∧ r.Directive = q ∧ r.Index = j ∧
                valueOf dirs q = some v ∧ Get m t e1.path = Res.ok (t, Except.ok v))) := by
  refine ⟨traversal_terminates hac, fun m L hL => ?_⟩
  obtain ⟨t, tr, ht, hdirs, hpay, htr, hrec⟩ := build_records hL
  have hsome : ∀ key e, lastAt L key = some e →
      ∃ r v, PathMap.Get tr key = some r ∧ r.Directive = e.node ∧ r.Index = e.off ∧
        (readSlice t.ints r.Indicies).length = e.anc.length ∧
        (readSlice t.ints r.Indicies).head? = e.anc.head? ∧
        valueOf dirs e.node = some v ∧ Get m t key = Res.ok (t, Except.ok v) := by
    intro key e hl
    have h := hrec key
    rw [hl] at h
    cases hr : PathMap.Get tr key with
    | none => simp [hr] at h
    | some r =>
      rw [hr] at h
      simp only [Option.map_some', Option.some.injEq, WalkBack.view, Entry.view,
        Prod.mk.injEq] at h
      obtain ⟨d, _, hd, _, _, _, _⟩ := (traversal_sound hL (lastAt_some hl).1).facts
      have hv : valueOf dirs e.node = some
          (if 0 < d.Args.length then Value.str (String.intercalate "-" d.Args)
            else Value.node e.node) := by
        simp [valueOf, hd]
      obtain ⟨hlen, hhead⟩ := build_record_paths hL ht htr hr hl
      refine ⟨r, _, rfl, h.2.2, h.2.1, hlen, hhead, hv, ?_⟩
      refine Get_of_record htr hr ?_
      rw [hdirs, h.2.2]
      exact hv
  have hsplit : ∀ L1 e L2, L = L1 ++ e :: L2 → (∀ x ∈ L2, x.path ≠ e.path) →
      ∃ r v, PathMap.Get tr e.path = some r ∧ r.Directive = e.node ∧ r.Index = e.off ∧
        valueOf dirs e.node = some v ∧ Get m t e.path = Res.ok (t, Except.ok v) := by
    intro L1 e L2 hsplit hlast
    have hl : lastAt L e.path = some e := by
      rw [hsplit]
      exact lastAt_split L1 L2 e hlast
    obtain ⟨r, v, hr, hnode, hoff, _, _, hv, hget⟩ := hsome e.path e hl
    exact ⟨r, v, hr, hnode, hoff, hv, hget⟩
  refine ⟨t, tr, ht, htr, hdirs, hpay, fun key hl => ?_, hsome, hsplit, ?_⟩
  · have h := hrec key
    rw [hl] at h
    have hg : PathMap.Get tr key = none := by
      cases hr : PathMap.Get tr key with
      | none => rfl
      | some r => simp [hr] at h
    exact ⟨hg, Get_of_no_record htr hg⟩
  · intro e1 bl j q d1 d2 he hbl hj hlt hd1 hd2 hname
    have hw := hL
    simp only [traversal, Res.bind_eq_ok, at?_eq_ok] at hw
    obtain ⟨c, hc, hw⟩ := hw
    obtain ⟨A, B, C, hABC⟩ := walk_twin_order dirs cfg m "" (SeqRef.unit 0) [0] c.Parsed L hw
      (seqAt_unit hc) e1 he bl j q d1 d2 hbl hj hlt hd1 hd2 hname
    refine ⟨A, B, C, hABC, fun hlast => ?_⟩
    exact hsplit (A ++ e1 :: B) ⟨e1.path, e1.owner, e1.anc, j, q⟩ C hABC hlast

set_option maxRecDepth 100000 in
/-- C4, on the document `listen 80; listen 443;` with two siblings of the same name
key: the build returns and leaves both cells in the document, the shared path
`/listen` is indexed, its record names the later sibling (node 1 at offset 1)
and `Get` returns `443`, the value of the later sibling. -/
theorem build_last_write_wins_witness :
    ∃ t r, NewTree 2 twinDirs twinCfg = Res.ok t ∧ t.dirs = twinDirs ∧ t.Payload = twinCfg ∧
      recordAt t "/listen" = some r ∧ r.Directive = 1 ∧ r.Index = 1 ∧
      Get 2 t "/listen" = Res.ok (t, Except.ok (Value.str "443")) := by
  obtain ⟨t, tr, ht, htr, hdirs, hpay, _, _, _, hsib⟩ :=
    (build_last_write_wins twinDirs twinCfg twinDoc_acyclic).2 2
      [⟨"/listen", SeqRef.unit 0, [0], 0, 0⟩, ⟨"/listen", SeqRef.unit 0, [0], 1, 1⟩]
      (by decide)
  obtain ⟨A, B, C, hABC, hlater⟩ :=
    hsib ⟨"/listen", SeqRef.unit 0, [0], 0, 0⟩ [0, 1] 1 1 ⟨"listen", ["80"], [], []⟩
      ⟨"listen", ["443"], [], []⟩ (by simp) (by rfl) (by rfl) (by decide) (by rfl) (by rfl)
      (by rfl)
  have hC : C = [] := by
    have h := congrArg List.length hABC
    simp only [List.length_cons, List.length_nil, List.length_append] at h
    exact List.length_eq_zero.1 (by omega)
  subst hC
  obtain ⟨r, v, hr, hnode, hoff, hv, hget⟩ := hlater (by simp)
  have hv2 : v = Value.str "443" := by
    have h443 : valueOf twinDirs 1 = some (Value.str "443") := by decide
    rw [h443] at hv
    exact (Option.some.inj hv).symm
  subst hv2
  exact ⟨t, r, ht, hdirs, hpay, by simp only [recordAt, htr]; exact hr, hnode, hoff, hget⟩

/-! ### Sequences of the document -/

theorem nodup_flatten_pos {S : List (List Nat)} (h : S.flatten.Nodup) :
    ∀ (a b : Nat) (l1 l2 : List Nat) (i1 i2 p : Nat), S[a]? = some l1 → S[b]? = some l2 →
      l1[i1]? = some p → l2[i2]? = some p → a = b ∧ i1 = i2 := by
  induction S with
  | nil => intro a b l1 l2 i1 i2 p h1; simp at h1
  | cons s S ih =>
    rw [List.flatten_cons, List.nodup_append] at h
    obtain ⟨hs, hS, hdis⟩ := h
    intro a b l1 l2 i1 i2 p h1 h2 h3 h4
    cases a with
    | zero =>
      simp only [List.getElem?_cons_zero, Option.some.injEq] at h1
      subst h1
      cases b with
      | zero =>
        simp only [List.getElem?_cons_zero, Option.some.injEq] at h2
        subst h2
        refine ⟨rfl, ?_⟩
        rw [List.nodup_iff_getElem?_ne_getElem?] at hs
        rcases Nat.lt_trichotomy i1 i2 with hlt | heq | hgt
        · exact absurd (h3.trans h4.symm) (hs i1 i2 hlt (List.getElem?_eq_some.1 h4).1)
        · exact heq
        · exact absurd (h4.trans h3.symm) (hs i2 i1 hgt (List.getElem?_eq_some.1 h3).1)
      | succ b =>
        simp only [List.getElem?_cons_succ] at h2
        exact absurd (List.mem_flatten.2 ⟨l2, List.getElem?_mem h2, List.getElem?_mem h4⟩)
          (fun hm => hdis (List.getElem?_mem h3) hm)
    | succ a =>
      simp only [List.getElem?_cons_succ] at h1
      cases b with
      | zero =>
        simp only [List.getElem?_cons_zero, Option.some.injEq] at h2
        subst h2
        exact absurd (List.mem_flatten.2 ⟨l1, List.getElem?_mem h1, List.getElem?_mem h3⟩)
          (fun hm => hdis (List.getElem?_mem h4) hm)
      | succ b =>
        simp only [List.getElem?_cons_succ] at h2
        obtain ⟨hab, hi⟩ := ih hS a b l1 l2 i1 i2 p h1 h2 h3 h4
        exact ⟨by rw [hab], hi⟩

theorem seqAt_slot {dirs : List Directive} {cfg : List Config} {r : SeqRef} {l : List Nat}
    (h : seqAt dirs cfg r = Res.ok l) :
    ((cfg.map fun c => c.Parsed) ++ (dirs.map fun d => d.Block))[r.slot cfg]? = some l := by
  cases r with
  | unit u =>
    simp only [seqAt, Res.bind_eq_ok, at?_eq_ok, Res.ok.injEq] at h
    obtain ⟨c, hc, rfl⟩ := h
    have hlt : u < cfg.length := (List.getElem?_eq_some.1 hc).1
    rw [SeqRef.slot, List.getElem?_append_left (by simpa using hlt)]
    simp [hc]
  | block p =>
    simp only [seqAt, Res.bind_eq_ok, at?_eq_ok, Res.ok.injEq] at h
    obtain ⟨d, hd, rfl⟩ := h
    rw [SeqRef.slot, List.getElem?_append_right (by simp)]
    simp [hd]

theorem slot_inj {dirs : List Directive} {cfg : List Config} {r1 r2 : SeqRef}
    {l1 l2 : List Nat} (h1 : seqAt dirs cfg r1 = Res.ok l1) (h2 : seqAt dirs cfg r2 = Res.ok l2)
    (h : r1.slot cfg = r2.slot cfg) : r1 = r2 := by
  cases r1 with
  | unit u =>
    simp only [seqAt, Res.bind_eq_ok, at?_eq_ok, Res.ok.injEq] at h1
    obtain ⟨c, hc, _⟩ := h1
    have hlt : u < cfg.length := (List.getElem?_eq_some.1 hc).1
    cases r2 with
    | unit u' => simp only [SeqRef.slot] at h; rw [h]
    | block p => simp only [SeqRef.slot] at h; omega
  | block p =>
    cases r2 with
    | unit u' =>
      simp only [seqAt, Res.bind_eq_ok, at?_eq_ok, Res.ok.injEq] at h2
      obtain ⟨c, hc, _⟩ := h2
      have hlt : u' < cfg.length := (List.getElem?_eq_some.1 hc).1
      simp only [SeqRef.slot] at h
      omega
    | block p' =>
      simp only [SeqRef.slot] at h
      have : p = p' := by omega
      rw [this]

/-- In a forest a pointer stands at one position of one sequence only. -/
theorem Forest.unique {dirs : List Directive} {cfg : List Config} (hf : Forest dirs cfg)
    {r1 r2 : SeqRef} {l1 l2 : List Nat} {i1 i2 p : Nat}
    (h1 : seqAt dirs cfg r1 = Res.ok l1) (h2 : seqAt dirs cfg r2 = Res.ok l2)
    (h3 : l1[i1]? = some p) (h4 : l2[i2]? = some p) : r1 = r2 ∧ i1 = i2 := by
  obtain ⟨hs, hi⟩ := nodup_flatten_pos hf _ _ l1 l2 i1 i2 p (seqAt_slot h1) (seqAt_slot h2) h3 h4
  exact ⟨slot_inj h1 h2 hs, hi⟩

theorem seqAt_setSeq_same {t : TreeMap} {ref : SeqRef} {l l' : List Nat}
    (h : seqAt t.dirs t.Payload ref = Res.ok l) :
    seqAt (setSeq t ref l').dirs (setSeq t ref l').Payload ref = Res.ok l' := by
  cases ref with
  | unit u =>
    simp only [seqAt, Res.bind_eq_ok, at?_eq_ok, Res.ok.injEq] at h
    obtain ⟨c, hc, _⟩ := h
    simp [seqAt, setSeq, at?, hc, Res.bind]
  | block p =>
    simp only [seqAt, Res.bind_eq_ok, at?_eq_ok, Res.ok.injEq] at h
    obtain ⟨d, hd, _⟩ := h
    simp [seqAt, setSeq, at?, hd, Res.bind]

theorem seqAt_setSeq_other {t : TreeMap} {ref ref' : SeqRef} {l' : List Nat}
    (h : ref' ≠ ref) :
    seqAt (setSeq t ref l').dirs (setSeq t ref l').Payload ref' =
      seqAt t.dirs t.Payload ref' := by
  cases ref with
  | unit u =>
    cases ref' with
    | unit u' =>
      have hne : u ≠ u' := fun e => h (by rw [e])
      simp [seqAt, setSeq, at?, List.getElem?_modify_ne _ _ hne]
    | block p => simp [seqAt, setSeq]
  | block p =>
    cases ref' with
    | unit u' => simp [seqAt, setSeq]
    | block p' =>
      have hne : p ≠ p' := fun e => h (by rw [e])
      simp [seqAt, setSeq, at?, List.getElem?_modify_ne _ _ hne]

theorem setSeq_labels (t : TreeMap) (ref : SeqRef) (l' : List Nat) :
    (setSeq t ref l').dirs.map Directive.label = t.dirs.map Directive.label ∧
    ((setSeq t ref l').Payload.map fun c => c.File) = t.Payload.map fun c => c.File := by
  cases ref with
  | unit u =>
    refine ⟨rfl, ?_⟩
    apply List.ext_getElem?
    intro n
    simp only [setSeq, List.getElem?_map, List.getElem?_modify]
    cases t.Payload[n]? with
    | none => rfl
    | some c => by_cases hn : u = n <;> simp [hn]
  | block p =>
    refine ⟨?_, rfl⟩
    apply List.ext_getElem?
    intro n
    simp only [setSeq, List.getElem?_map, List.getElem?_modify]
    cases t.dirs[n]? with
    | none => rfl
    | some c => by_cases hn : p = n <;> simp [hn, Directive.label]

theorem findKill_some {kill : Nat} :
    ∀ (l : List Nat) (k i : Nat), findKill kill l k = some i →
      ∃ j, i = k + j ∧ l[j]? = some kill := by
  intro l
  induction l with
  | nil => intro k i h; simp [findKill] at h
  | cons b l ih =>
    intro k i h
    simp only [findKill, Directive.Equal] at h
    by_cases hb : b = kill
    · simp only [hb, beq_self_eq_true, if_true, Option.some.injEq] at h
      exact ⟨0, by omega, by simp [hb]⟩
    · have hb' : (b == kill) = false := by simpa using hb
      simp only [hb', Bool.false_eq_true, if_false] at h
      obtain ⟨j, hj, hl⟩ := ih (k + 1) i h
      exact ⟨j + 1, by omega, by simpa using hl⟩

/-! ### `Delete` -/

theorem setSeq_tree (t : TreeMap) (ref : SeqRef) (l : List Nat) :
    (setSeq t ref l).tree = t.tree := by
  cases ref <;> rfl

/-- What a `Delete` that returns no error has done. -/
theorem Delete_ok {t t' : TreeMap} {path : String} (h : Delete t path = Res.ok (t', none)) :
    ∃ tr wb ref l i, t.tree = some tr ∧ PathMap.Get tr path = some wb ∧
      seqAt t.dirs t.Payload ref = Res.ok l ∧ findKill wb.Directive l 0 = some i ∧
      t'.dirs = (setSeq t ref (l.eraseIdx i)).dirs ∧
      t'.Payload = (setSeq t ref (l.eraseIdx i)).Payload ∧
      t'.tree = some (PathMap.Delete tr path) := by
  unfold Delete walkback at h
  cases htr : t.tree with
  | none => simp [htr, Res.bind] at h
  | some tr =>
    cases hg : PathMap.Get tr path with
    | none => simp [htr, hg, Res.bind] at h
    | some wb =>
      simp only [htr, hg, Res.bind_ok, Res.bind_eq_ok] at h
      obtain ⟨b, _, l, hl, h⟩ := h
      cases b with
      | none => simp [derefSeq] at hl
      | some ref =>
        simp only [derefSeq] at hl
        cases hk : findKill wb.Directive l 0 with
        | none => simp [hk] at h
        | some i =>
          simp only [hk, Res.ok.injEq, Prod.mk.injEq, and_true] at h
          subst h
          exact ⟨tr, wb, ref, l, i, rfl, hg, hl, hk, rfl, rfl, by simp [setSeq_tree, htr]⟩

/-- C8.  For every state and path, when `Delete(path)` returns without error an
immediately following `Get(path)` returns the not-found error for that path (and
leaves the state as it is). -/
theorem get_after_delete_not_found (fuel : Nat) (t t' : TreeMap) (path : String)
    (h : Delete t path = Res.ok (t', none)) :
    Get fuel t' path = Res.ok (t', Except.error (Err.notFound path)) := by
  obtain ⟨tr, _, _, _, _, _, _, _, _, _, _, htr'⟩ := Delete_ok h
  exact Get_of_no_record htr' (PathMap.Get_Delete_self tr path)

set_option maxRecDepth 100000 in
theorem serverTree_built : NewTree 3 serverDirs serverCfg = Res.ok serverTree := by decide

set_option maxRecDepth 100000 in
theorem serverTree_delete :
    Delete serverTree "/server/listen" = Res.ok (serverDeleted, none) := by decide

/-- C8, on the scenario document: `Delete("/server/listen")` after the build. -/
theorem get_after_delete_not_found_witness :
    Delete serverTree "/server/listen" = Res.ok (serverDeleted, none) ∧
    Get 0 serverDeleted "/server/listen"
      = Res.ok (serverDeleted, Except.error (Err.notFound "/server/listen")) :=
  ⟨serverTree_delete,
    get_after_delete_not_found 0 serverTree serverDeleted "/server/listen" serverTree_delete⟩

/-- C7.  For every document that is a forest, every path indexed immediately
after the build and its record `wb`: when `Delete(path)` returns without error,
the sequence that holds the recorded node at the recorded offset loses exactly
that slot (the other elements keep their order), every other sequence of the
document is as before, and no cell or unit changes otherwise. -/
theorem delete_removes_recorded_slot (dirs : List Directive) (cfg : List Config) (m : Nat)
    (t t' : TreeMap) (path : String) (wb : WalkBack)
    (hb : NewTree m dirs cfg = Res.ok t) (hf : Forest dirs cfg)
    (hwb : recordAt t path = some wb) (hd : Delete t path = Res.ok (t', none)) :
    ∃ ref l, seqAt dirs cfg ref = Res.ok l ∧ l[wb.Index]? = some wb.Directive ∧
      seqAt t'.dirs t'.Payload ref = Res.ok (l.eraseIdx wb.Index) ∧
      (∀ ref', ref' ≠ ref → seqAt t'.dirs t'.Payload ref' = seqAt dirs cfg ref') ∧
      t'.dirs.map Directive.label = dirs.map Directive.label ∧
      (t'.Payload.map fun c => c.File) = cfg.map fun c => c.File := by
  have hbs := build_spec dirs cfg m
  rw [hb] at hbs
  obtain ⟨L, hL, -⟩ := Res.rel_ok_left hbs
  obtain ⟨t0, tr, ht0, hdirs, hpay, htr, hrec⟩ := build_records hL
  rw [hb] at ht0
  cases ht0
  obtain ⟨tr', wb', ref, l, i, htr', hg, hseq, hk, hd1, hd2, _⟩ := Delete_ok hd
  rw [htr] at htr'
  cases htr'
  have hwb' : PathMap.Get tr path = some wb := by simpa [recordAt, htr] using hwb
  rw [hwb'] at hg
  cases hg
  have h := hrec path
  rw [hwb'] at h
  cases hl : lastAt L path with
  | none => simp [hl] at h
  | some e =>
    rw [hl] at h
    simp only [Option.map_some', Option.some.injEq, WalkBack.view, Entry.view,
      Prod.mk.injEq] at h
    obtain ⟨_, l0, _, _, _, hseq0, hoff⟩ := (traversal_sound hL (lastAt_some hl).1).facts
    obtain ⟨j, hj, hlj⟩ := findKill_some l 0 i hk
    rw [Nat.zero_add] at hj
    subst hj
    rw [hdirs, hpay] at hseq
    rw [← h.2.2] at hoff
    obtain ⟨href, hi⟩ := hf.unique hseq hseq0 hlj hoff
    subst href
    rw [hseq0] at hseq
    cases hseq
    rw [hi, ← h.2.1] at hd1 hd2 hlj
    refine ⟨_, _, hseq0, hlj, ?_, ?_, ?_, ?_⟩
    · rw [hd1, hd2]
      exact seqAt_setSeq_same (t := t) (by rw [hdirs, hpay]; exact hseq0)
    · intro ref' hne
      rw [hd1, hd2, seqAt_setSeq_other hne, hdirs, hpay]
    · rw [hd1, (setSeq_labels t _ _).1, hdirs]
    · rw [hd2, (setSeq_labels t _ _).2, hpay]

set_option maxRecDepth 100000 in
/-- C7, on the document `server { listen 80; listen 80; }`: the record under
`/server/listen` is the one of the second `listen`, and that slot is removed. -/
theorem delete_removes_recorded_slot_witness :
    ∃ ref l, seqAt alikeDirs serverCfg ref = Res.ok l ∧
      l[alikeRecord.Index]? = some alikeRecord.Directive ∧
      seqAt alikeDeleted.dirs alikeDeleted.Payload ref = Res.ok (l.eraseIdx alikeRecord.Index) ∧
      (∀ ref', ref' ≠ ref →
        seqAt alikeDeleted.dirs alikeDeleted.Payload ref' = seqAt alikeDirs serverCfg ref') ∧
      alikeDeleted.dirs.map Directive.label = alikeDirs.map Directive.label ∧
      (alikeDeleted.Payload.map fun c => c.File) = serverCfg.map fun c => c.File :=
  delete_removes_recorded_slot alikeDirs serverCfg 3 alikeTree alikeDeleted "/server/listen"
    alikeRecord (by decide) (by unfold Forest; decide) (by decide) (by decide)

/-! ### Evaluations of the mutations -/

set_option maxRecDepth 100000 in
/-- C11 (evaluation at the failing input).  After the build of
`http { server { listen 80; } gzip on; }`, `Delete("/http/server")` returns no error and
the block of `http` becomes `[gzip]`.  Afterwards `Get("/http/server")` fails, but
`Get("/http/server/listen")` still returns `80`: the entry of the descendant is
still in the index.  The record of the following sibling `/http/gzip` keeps
offset 1 although `gzip` now stands at offset 0, and is not positionally valid. -/
theorem delete_keeps_descendants_and_offsets :
    (NewTree 6 familyDirs nestedCfg).bind (fun t =>
      (Delete t "/http/server").bind fun r =>
        (getValue 6 r.1 "/http/server").bind fun g0 =>
        (getValue 6 r.1 "/http/server/listen").bind fun g1 =>
        Res.ok (r.2, (blocksOf r.1).head?, g0, g1, recordAt r.1 "/http/gzip",
          (recordAt r.1 "/http/gzip").map (positionallyValid r.1)))
    = Res.ok (none, some [3], Except.error (Err.notFound "/http/server"),
        Except.ok (Value.str "80"), some ⟨⟨1, 2⟩, 1, 3⟩, some false) := by
  rfl

set_option maxRecDepth 100000 in
/-- C12 (evaluation at the failing input).  After the build of
`http { server { listen 80; } gzip on; }` and a `Delete("/http/server")` that returns no
error, `Append("/http/gzip", index)` panics: the record of `/http/gzip` still has
offset 1 and the block of `http` has one element left, so `(*b)[wb.Index]` is out of
range. -/
theorem append_after_delete_out_of_range :
    (NewTree 6 familyDirs nestedCfg).bind (fun t =>
      (Delete t "/http/server").bind fun r =>
        Res.ok (r.2, recordAt r.1 "/http/gzip", (blocksOf r.1).head?,
          Append 6 r.1 "/http/gzip" [4]))
    = Res.ok (none, some ⟨⟨1, 2⟩, 1, 3⟩, some [3], Res.panic) := by
  rfl

set_option maxRecDepth 100000 in
/-- C13 (evaluation at the failing input).  On the scenario document
`server { listen 80; }`, `Append("/server", proxy_pass backend)` returns no error and
`Get("/server/proxy_pass")` returns `backend`.  The re-indexing of `Append` has replaced
the record of `/server/listen` by one with ancestor path `[0]`, so
`Delete("/server/listen")` searches the root sequence of unit 0, returns the error
`could not delete from path` and leaves `listen` in the block of `server`; after it
`Get("/server/listen")` still returns `80`. -/
theorem scenario_delete_fails_after_append :
    (NewTree 3 serverDirs serverCfg).bind (fun t =>
      (Append 3 t "/server" [2]).bind fun r =>
        (getValue 3 r.1 "/server/proxy_pass").bind fun g1 =>
        (Delete r.1 "/server/listen").bind fun d =>
        (getValue 3 d.1 "/server/listen").bind fun g2 =>
        (getValue 3 d.1 "/server/proxy_pass").bind fun g3 =>
        Res.ok (r.2, g1, ancestorsAt r.1 "/server/listen", d.2, (blocksOf d.1).head?, g2, g3))
    = Res.ok (none, Except.ok (Value.str "backend"), some [0], some Err.couldNotDelete,
        some [1, 2], Except.ok (Value.str "80"), Except.ok (Value.str "backend")) := by
  rfl

set_option maxRecDepth 100000 in
/-- C14 (evaluation at the failing input).  After the build of
`http { server { location / { root /var; } gzip on; } }`, `Insert("/http/server", index)`
returns no error and the block of `http` becomes `[index, server]`.  The path of the
enclosing sequence followed by the name key of the inserted node is `/http/index`;
`Delete("/http/index")` returns the error `bad path` and the block of `http` keeps its two
elements. -/
theorem insert_then_delete_sibling_path_fails :
    (NewTree 6 nestedDirs nestedCfg).bind (fun t =>
      (Insert 6 t "/http/server" [5]).bind fun r =>
        (Delete r.1 "/http/index").bind fun d =>
        Res.ok (r.2, (blocksOf t).head?, (blocksOf r.1).head?, d.2, (blocksOf d.1).head?))
    = Res.ok (none, some [1], some [5, 1], some (Err.badPath "/http/index"), some [5, 1]) := by
  rfl

set_option maxRecDepth 100000 in
/-- C17 (evaluation at the failing input).  After the build of `events { } http { }`,
`Apply("/", m, gzip on)` with a matcher `m` that accepts every directive appends the
node to the block of `events` only: the indexed paths `/events` and `/http` both start
with the prefix and both recorded nodes match, but the visitor returns true at
the first match and the walk ends there. -/
theorem apply_stops_at_first_match :
    (NewTree 3 pairDirs pairCfg).bind (fun t =>
      (Apply t "/" anyDirective [2]).bind fun r =>
        Res.ok (r.2, (recordAt t "/events").map (fun w => w.Directive),
          (recordAt t "/http").map (fun w => w.Directive), blocksOf t, blocksOf r.1))
    = Res.ok (none, some 0, some 1, [[], [], []], [[2], [], []]) := by
  rfl

/-! ### Errors of the mutations -/

theorem walkback_ok {t : TreeMap} {path : String} {r : Except Err WalkBack}
    (h : walkback t path = Res.ok r) :
    ∃ tr, t.tree = some tr ∧
      ((PathMap.Get tr path = none ∧ r = Except.error (Err.badPath path)) ∨
        ∃ wb, PathMap.Get tr path = some wb ∧ r = Except.ok wb) := by
  unfold walkback at h
  cases htr : t.tree with
  | none => simp [htr] at h
  | some tr =>
    refine ⟨tr, rfl, ?_⟩
    cases hg : PathMap.Get tr path with
    | none =>
      simp only [htr, hg, Res.ok.injEq] at h
      exact Or.inl ⟨rfl, h.symm⟩
    | some wb =>
      simp only [htr, hg, Res.ok.injEq] at h
      exact Or.inr ⟨wb, rfl, h.symm⟩

/-- An error returned by `Insert` is the one of `walkback` or the wrapped error of
the splice, and the state is the one before the call. -/
theorem Insert_error {fuel : Nat} {t t' : TreeMap} {path : String} {inserts : List Nat}
    {e : Err} (h : Insert fuel t path inserts = Res.ok (t', some e)) :
    t' = t ∧ (e = Err.badPath path ∨ ∃ off, e = Err.insertFailed path off) := by
  simp only [Insert, Res.bind_eq_ok] at h
  obtain ⟨r, hr, h⟩ := h
  obtain ⟨tr, _, hcase⟩ := walkback_ok hr
  rcases hcase with ⟨_, rfl⟩ | ⟨wb, _, rfl⟩
  · simp only [Res.ok.injEq, Prod.mk.injEq, Option.some.injEq] at h
    exact ⟨h.1.symm, Or.inl h.2.symm⟩
  · simp only [Res.bind_eq_ok] at h
    obtain ⟨_, _, st, _, h⟩ := h
    cases hst : st.2 with
    | none => simp [hst] at h
    | some block =>
      simp only [hst, Res.bind_eq_ok] at h
      obtain ⟨d, _, h⟩ := h
      cases hd : d.Insert wb.Index inserts with
      | none =>
        simp only [hd, Res.ok.injEq, Prod.mk.injEq, Option.some.injEq] at h
        exact ⟨h.1.symm, Or.inr ⟨wb.Index, h.2.symm⟩⟩
      | some d1 =>
        simp only [hd, Res.bind_eq_ok, Res.ok.injEq, Prod.mk.injEq] at h
        obtain ⟨_, _, _, h⟩ := h
        cases h

/-- An error returned by `Append` is the one of `walkback`, and the state is the one
before the call. -/
theorem Append_error {fuel : Nat} {t t' : TreeMap} {path : String} {blocks : List Nat}
    {e : Err} (h : Append fuel t path blocks = Res.ok (t', some e)) :
    t' = t ∧ e = Err.badPath path := by
  simp only [Append, Res.bind_eq_ok] at h
  obtain ⟨r, hr, h⟩ := h
  obtain ⟨tr, _, hcase⟩ := walkback_ok hr
  rcases hcase with ⟨_, rfl⟩ | ⟨wb, _, rfl⟩
  · simp only [Res.ok.injEq, Prod.mk.injEq, Option.some.injEq] at h
    exact ⟨h.1.symm, h.2.symm⟩
  · simp only [Res.bind_eq_ok, Res.ok.injEq, Prod.mk.injEq] at h
    obtain ⟨_, _, _, _, _, _, _, _, _, _, _, h⟩ := h
    cases h

/-- An error returned by `Delete` is the one of `walkback` or the one of the failed
search, and the state is the one before the call. -/
theorem Delete_error {t t' : TreeMap} {path : String} {e : Err}
    (h : Delete t path = Res.ok (t', some e)) :
    t' = t ∧ (e = Err.badPath path ∨ e = Err.couldNotDelete) := by
  simp only [Delete, Res.bind_eq_ok] at h
  obtain ⟨r, hr, h⟩ := h
  obtain ⟨tr, _, hcase⟩ := walkback_ok hr
  rcases hcase with ⟨_, rfl⟩ | ⟨wb, _, rfl⟩
  · simp only [Res.ok.injEq, Prod.mk.injEq, Option.some.injEq] at h
    exact ⟨h.1.symm, Or.inl h.2.symm⟩
  · simp only [Res.bind_eq_ok] at h
    obtain ⟨b, _, l, _, h⟩ := h
    split at h
    · simp at h
    · simp only [Res.ok.injEq, Prod.mk.injEq, Option.some.injEq] at h
      exact ⟨h.1.symm, Or.inr h.2.symm⟩

/-- C15.  For every state with an index and every path that is not in it, `Insert`,
`Append` and `Delete` each return the error `bad path` for that path; and whenever
one of the three returns an error, the state it returns (document and index)
is the state before the call. -/
theorem mutations_fail_without_effect (fuel : Nat) (t : TreeMap) (path : String)
    (nodes : List Nat) :
    (∀ tr, t.tree = some tr → PathMap.Get tr path = none →
      Insert fuel t path nodes = Res.ok (t, some (Err.badPath path)) ∧
      Append fuel t path nodes = Res.ok (t, some (Err.badPath path)) ∧
      Delete t path = Res.ok (t, some (Err.badPath path))) ∧
    (∀ t' e, Insert fuel t path nodes = Res.ok (t', some e) → t' = t) ∧
    (∀ t' e, Append fuel t path nodes = Res.ok (t', some e) → t' = t) ∧
    (∀ t' e, Delete t path = Res.ok (t', some e) → t' = t) := by
  refine ⟨?_, fun t' e h => (Insert_error h).1, fun t' e h => (Append_error h).1,
    fun t' e h => (Delete_error h).1⟩
  intro tr htr hg
  refine ⟨?_, ?_, ?_⟩ <;> simp [Insert, Append, Delete, walkback, htr, hg, Res.bind]

set_option maxRecDepth 100000 in
/-- C15, on the built scenario document and the path `/nowhere`. -/
theorem mutations_fail_without_effect_witness :
    Insert 3 serverTree "/nowhere" [2] = Res.ok (serverTree, some (Err.badPath "/nowhere")) ∧
    Append 3 serverTree "/nowhere" [2] = Res.ok (serverTree, some (Err.badPath "/nowhere")) ∧
    Delete serverTree "/nowhere" = Res.ok (serverTree, some (Err.badPath "/nowhere")) :=
  (mutations_fail_without_effect 3 serverTree "/nowhere" [2]).1 _ rfl (by decide)

/-! ### `ChangeSet` -/

theorem applyChange_error {fuel i : Nat} {c : Changes} {t t' : TreeMap} {e : Err}
    (h : applyChange fuel i c t = Res.ok (t', some e)) : t' = t ∧ ErrorOf i c e := by
  unfold applyChange at h
  by_cases h1 : c.Act = ActionInsert
  · simp only [h1, if_true] at h
    exact ⟨(Insert_error h).1, Or.inl ⟨h1, (Insert_error h).2⟩⟩
  · by_cases h2 : c.Act = ActionAppend
    · simp only [h1, h2, if_true, if_false] at h
      exact ⟨(Append_error h).1, Or.inr (Or.inl ⟨h2, (Append_error h).2⟩)⟩
    · by_cases h3 : c.Act = ActionDelete
      · simp only [h1, h2, h3, if_true, if_false] at h
        exact ⟨(Delete_error h).1, Or.inr (Or.inr (Or.inl ⟨h3, (Delete_error h).2⟩))⟩
      · simp only [h1, h2, h3, if_false, Res.ok.injEq, Prod.mk.injEq,
          Option.some.injEq] at h
        exact ⟨h.1.symm, Or.inr (Or.inr (Or.inr ⟨h1, h2, h3, h.2.symm⟩))⟩

theorem ErrorOf_shift {i k : Nat} {c : Changes} {e : Err} (h : ErrorOf i c e) :
    ErrorOf (k + i) c (Err.shift k e) := by
  rcases h with ⟨h1, h | ⟨off, h⟩⟩ | ⟨h1, h⟩ | ⟨h1, h | h⟩ | ⟨h1, h2, h3, h⟩ <;> subst h
  · exact Or.inl ⟨h1, Or.inl rfl⟩
  · exact Or.inl ⟨h1, Or.inr ⟨off, rfl⟩⟩
  · exact Or.inr (Or.inl ⟨h1, rfl⟩)
  · exact Or.inr (Or.inr (Or.inl ⟨h1, Or.inl rfl⟩))
  · exact Or.inr (Or.inr (Or.inl ⟨h1, Or.inr rfl⟩))
  · exact Or.inr (Or.inr (Or.inr ⟨h1, h2, h3, rfl⟩))

/-- The switch for instruction number `k + i` is the switch for number `i` with
the error renumbered. -/
theorem applyChange_shift (fuel i k : Nat) (c : Changes) (t : TreeMap) :
    applyChange fuel (k + i) c t =
      (applyChange fuel i c t).bind fun r => Res.ok (r.1, r.2.map (Err.shift k)) := by
  cases hr : applyChange fuel i c t with
  | panic =>
    unfold applyChange at hr ⊢
    by_cases h1 : c.Act = ActionInsert
    · simpa [h1, Res.bind] using hr
    · by_cases h2 : c.Act = ActionAppend
      · simpa [h1, h2, Res.bind] using hr
      · by_cases h3 : c.Act = ActionDelete
        · simpa [h1, h2, h3, Res.bind] using hr
        · simp [h1, h2, h3] at hr
  | fuel =>
    unfold applyChange at hr ⊢
    by_cases h1 : c.Act = ActionInsert
    · simpa [h1, Res.bind] using hr
    · by_cases h2 : c.Act = ActionAppend
      · simpa [h1, h2, Res.bind] using hr
      · by_cases h3 : c.Act = ActionDelete
        · simpa [h1, h2, h3, Res.bind] using hr
        · simp [h1, h2, h3] at hr
  | ok r =>
    obtain ⟨t', oe⟩ := r
    simp only [Res.bind_ok]
    unfold applyChange at hr ⊢
    by_cases h1 : c.Act = ActionInsert
    · simp only [h1, if_true] at hr ⊢
      rw [hr]
      cases oe with
      | none => rfl
      | some e => rcases (Insert_error hr).2 with h | ⟨off, h⟩ <;> subst h <;> rfl
    · by_cases h2 : c.Act = ActionAppend
      · simp only [h1, h2, if_true, if_false] at hr ⊢
        rw [hr]
        cases oe with
        | none => rfl
        | some e => have h := (Append_error hr).2; subst h; rfl
      · by_cases h3 : c.Act = ActionDelete
        · simp only [h1, h2, h3, if_true, if_false] at hr ⊢
          rw [hr]
          cases oe with
          | none => rfl
          | some e => rcases (Delete_error hr).2 with h | h <;> subst h <;> rfl
        · simp only [h1, h2, h3, if_false, Res.ok.injEq, Prod.mk.injEq] at hr ⊢
          obtain ⟨rfl, rfl⟩ := hr
          exact ⟨rfl, rfl⟩

theorem changeLoop_shift (fuel k : Nat) :
    ∀ (cs : List Changes) (i : Nat) (t : TreeMap),
      changeLoop fuel cs (k + i) t =
        (changeLoop fuel cs i t).bind fun r => Res.ok (r.1, r.2.map (Err.shift k)) := by
  intro cs
  induction cs with
  | nil => intro i t; rfl
  | cons c cs ih =>
    intro i t
    simp only [changeLoop]
    rw [applyChange_shift]
    cases applyChange fuel i c t with
    | panic => rfl
    | fuel => rfl
    | ok r =>
      obtain ⟨t1, oe⟩ := r
      cases oe with
      | some e => rfl
      | none => exact ih (i + 1) t1

theorem changeLoop_append (fuel : Nat) :
    ∀ (a b : List Changes) (i : Nat) (t : TreeMap),
      changeLoop fuel (a ++ b) i t =
        (changeLoop fuel a i t).bind fun r =>
          match r.2 with
          | some e => Res.ok (r.1, some e)
          | none => changeLoop fuel b (i + a.length) r.1 := by
  intro a
  induction a with
  | nil => intro b i t; rfl
  | cons c a ih =>
    intro b i t
    simp only [List.cons_append, changeLoop, List.length_cons]
    cases applyChange fuel i c t with
    | panic => rfl
    | fuel => rfl
    | ok r =>
      obtain ⟨t1, oe⟩ := r
      cases oe with
      | some e => rfl
      | none =>
        simp only [Res.bind_ok]
        have h := ih b (i + 1) t1
        have hlen : i + 1 + a.length = i + (a.length + 1) := by omega
        rw [hlen] at h
        exact h

theorem changeLoop_error (fuel : Nat) :
    ∀ (cs : List Changes) (i : Nat) (t t' : TreeMap) (e : Err),
      changeLoop fuel cs i t = Res.ok (t', some e) →
      ∃ j c t1, cs[j]? = some c ∧ changeLoop fuel (cs.take j) i t = Res.ok (t1, none) ∧
        applyChange fuel (i + j) c t1 = Res.ok (t', some e) := by
  intro cs
  induction cs with
  | nil => intro i t t' e h; simp [changeLoop] at h
  | cons c cs ih =>
    intro i t t' e h
    simp only [changeLoop, Res.bind_eq_ok] at h
    obtain ⟨r, hr, h⟩ := h
    obtain ⟨t1, oe⟩ := r
    cases oe with
    | some e1 =>
      simp only [Res.ok.injEq, Prod.mk.injEq, Option.some.injEq] at h
      obtain ⟨rfl, rfl⟩ := h
      exact ⟨0, c, t, by simp, rfl, hr⟩
    | none =>
      simp only at h
      obtain ⟨j, c', t2, hj, htake, happ⟩ := ih (i + 1) t1 t' e h
      refine ⟨j + 1, c', t2, by simpa using hj, ?_, ?_⟩
      · simp only [List.take_succ_cons, changeLoop, hr, Res.bind_ok]
        exact htake
      · have : i + (j + 1) = i + 1 + j := by omega
        rw [this]
        exact happ

/-- C16.  `ChangeSet` applies the instructions one at a time in list order.  An
instruction is dispatched by its tag to `Insert`, `Append` or `Delete`, and any other
tag is an error and leaves the state alone.  The empty list returns no error
and the state; `ChangeSet(a ++ b)` is `ChangeSet(a)` followed, when that returns no error,
by `ChangeSet(b)` on the state reached (an error for an unsupported tag in `b` names
the number of the instruction in the whole list); and when the instructions
of `a` return no error and the next instruction returns an error, `ChangeSet`
returns that error with the state reached after `a`, whatever follows. -/
theorem changeSet_runs_in_order (fuel : Nat) (t : TreeMap) :
    (∀ (i : Nat) (c : Changes),
      (c.Act = ActionInsert → applyChange fuel i c t = Insert fuel t c.Path c.Directives) ∧
      (c.Act = ActionAppend → applyChange fuel i c t = Append fuel t c.Path c.Directives) ∧
      (c.Act = ActionDelete → applyChange fuel i c t = Delete t c.Path) ∧
      (c.Act ≠ ActionInsert → c.Act ≠ ActionAppend → c.Act ≠ ActionDelete →
        applyChange fuel i c t = Res.ok (t, some (Err.notSupported i c.Act)))) ∧
    ChangeSet fuel t [] = Res.ok (t, none) ∧
    (∀ c, ChangeSet fuel t [c] = applyChange fuel 0 c t) ∧
    (∀ a b, ChangeSet fuel t (a ++ b) =
      (ChangeSet fuel t a).bind fun r =>
        match r.2 with
        | some e => Res.ok (r.1, some e)
        | none => (ChangeSet fuel r.1 b).bind fun r2 =>
            Res.ok (r2.1, r2.2.map (Err.shift a.length))) ∧
    (∀ a c b t1 t2 e, ChangeSet fuel t a = Res.ok (t1, none) →
      applyChange fuel a.length c t1 = Res.ok (t2, some e) →
      ChangeSet fuel t (a ++ c :: b) = Res.ok (t1, some e) ∧ t2 = t1) := by
  refine ⟨?_, rfl, ?_, ?_, ?_⟩
  · intro i c
    refine ⟨?_, ?_, ?_, ?_⟩
    · intro h; simp [applyChange, h]
    · intro h
      have h1 : c.Act ≠ ActionInsert := by rw [h]; decide
      unfold applyChange
      rw [if_neg h1, if_pos h]
    · intro h
      have h1 : c.Act ≠ ActionInsert := by rw [h]; decide
      have h2 : c.Act ≠ ActionAppend := by rw [h]; decide
      unfold applyChange
      rw [if_neg h1, if_neg h2, if_pos h]
    · intro h1 h2 h3; simp [applyChange, h1, h2, h3]
  · intro c
    simp only [ChangeSet, changeLoop]
    cases applyChange fuel 0 c t with
    | panic => rfl
    | fuel => rfl
    | ok r =>
      obtain ⟨t1, oe⟩ := r
      cases oe <;> rfl
  · intro a b
    simp only [ChangeSet]
    rw [changeLoop_append]
    congr 1
    funext r
    cases r.2 with
    | some e => rfl
    | none =>
      simp only
      rw [Nat.zero_add]
      exact changeLoop_shift fuel a.length b 0 r.1
  · intro a c b t1 t2 e ha hc
    have ht : t2 = t1 := (applyChange_error hc).1
    subst ht
    refine ⟨?_, rfl⟩
    simp only [ChangeSet] at ha ⊢
    rw [changeLoop_append, ha]
    simp only [Res.bind_ok, Nat.zero_add, changeLoop, hc]

set_option maxRecDepth 100000 in
theorem nestedTree_built : NewTree 6 nestedDirs nestedCfg = Res.ok nestedTree := by rfl

set_option maxRecDepth 100000 in
theorem nestedTree_insert :
    ChangeSet 6 nestedTree [⟨ActionInsert, "/http/server", [5]⟩]
      = Res.ok (nestedInserted, none) := by rfl

set_option maxRecDepth 100000 in
/-- C16, on the built document `http { server { location / { root /var; } gzip on; } }` with
the instructions `[Insert("/http/server", index), Delete("/nowhere")]`: the error of the
`Delete` is returned and the block of `http`, which was `[server]`, is `[index, server]`. -/
theorem changeSet_runs_in_order_witness :
    ChangeSet 6 nestedTree
        [⟨ActionInsert, "/http/server", [5]⟩, ⟨ActionDelete, "/nowhere", []⟩]
      = Res.ok (nestedInserted, some (Err.badPath "/nowhere")) ∧
    (blocksOf nestedTree).head? = some [1] ∧
    (blocksOf nestedInserted).head? = some [5, 1] :=
  ⟨((changeSet_runs_in_order 6 nestedTree).2.2.2.2 [⟨ActionInsert, "/http/server", [5]⟩]
      ⟨ActionDelete, "/nowhere", []⟩ [] nestedInserted nestedInserted (Err.badPath "/nowhere")
      nestedTree_insert (by rfl)).1, by rfl, by rfl⟩

set_option maxRecDepth 100000 in
/-- C18 (counterexample).  On the built scenario document `server { listen 80; }` the
instructions `[Append("/server", proxy_pass), Delete("/server/listen")]` fail at instruction 1
with the error `could not delete from path`, whose message names neither the number
of the instruction nor its path. -/
theorem changeSet_error_names_no_instruction :
    ChangeSet 3 serverTree
        [⟨ActionAppend, "/server", [2]⟩, ⟨ActionDelete, "/server/listen", []⟩]
      = Res.ok (serverAppended, some Err.couldNotDelete) ∧
    Err.couldNotDelete.instruction? = none ∧ Err.couldNotDelete.path? = none := by
  refine ⟨by rfl, rfl, rfl⟩

theorem findKill_eq_none {kill : Nat} :
    ∀ (l : List Nat) (k : Nat), findKill kill l k = none ↔ kill ∉ l := by
  intro l
  induction l with
  | nil => intro k; simp [findKill]
  | cons b rest ih =>
    intro k
    by_cases h : b = kill
    · simp [findKill, Directive.Equal, h]
    · have h' : ¬ kill = b := fun x => h x.symm
      simp [findKill, Directive.Equal, h, h', ih]

theorem recordAt_some {t : TreeMap} {path : String} {wb : WalkBack}
    (h : recordAt t path = some wb) : ∃ tr, t.tree = some tr ∧ PathMap.Get tr path = some wb := by
  unfold recordAt at h
  cases htr : t.tree with
  | none => simp [htr] at h
  | some tr => exact ⟨tr, rfl, by simpa [htr] using h⟩

/-- When `Insert` returns an error: the path is not indexed, or the splice is
refused. -/
theorem Insert_fails_iff {fuel : Nat} {t t' : TreeMap} {path : String} {inserts : List Nat}
    {e : Err} :
    Insert fuel t path inserts = Res.ok (t', some e) ↔
      t' = t ∧
      (((∃ tr, t.tree = some tr ∧ PathMap.Get tr path = none) ∧ e = Err.badPath path) ∨
        ∃ wb st block d, recordAt t path = some wb ∧ t.Payload[0]? ≠ none ∧
          resolveOwner t (readSlice t.ints wb.Indicies) = Res.ok st ∧ st.2 = some block ∧
          t.dirs[block]? = some d ∧ d.Insert wb.Index inserts = none ∧
          e = Err.insertFailed path wb.Index) := by
  constructor
  · intro h
    simp only [Insert, Res.bind_eq_ok] at h
    obtain ⟨r, hr, h⟩ := h
    obtain ⟨tr, htr, hcase⟩ := walkback_ok hr
    rcases hcase with ⟨hg, rfl⟩ | ⟨wb, hg, rfl⟩
    · simp only [Res.ok.injEq, Prod.mk.injEq, Option.some.injEq] at h
      exact ⟨h.1.symm, Or.inl ⟨⟨tr, htr, hg⟩, h.2.symm⟩⟩
    · simp only [Res.bind_eq_ok] at h
      obtain ⟨c0, hc0, st, hst0, h⟩ := h
      cases hst : st.2 with
      | none => simp [hst] at h
      | some block =>
        simp only [hst, Res.bind_eq_ok] at h
        obtain ⟨d, hd, h⟩ := h
        cases hdi : d.Insert wb.Index inserts with
        | none =>
          simp only [hdi, Res.ok.injEq, Prod.mk.injEq, Option.some.injEq] at h
          refine ⟨h.1.symm, Or.inr ⟨wb, st, block, d, ?_, ?_, hst0, hst, at?_eq_ok.1 hd, hdi,
            h.2.symm⟩⟩
          · simp [recordAt, htr, hg]
          · rw [at?_eq_ok.1 hc0]; simp
        | some d1 =>
          simp only [hdi, Res.bind_eq_ok, Res.ok.injEq, Prod.mk.injEq] at h
          obtain ⟨_, _, _, h⟩ := h
          cases h
  · rintro ⟨rfl, ⟨⟨tr, htr, hg⟩, rfl⟩ | ⟨wb, st, block, d, hrec, hp, hst0, hst, hd, hdi, rfl⟩⟩
    · simp [Insert, walkback, htr, hg, Res.bind]
    · obtain ⟨tr, htr, hg⟩ := recordAt_some hrec
      obtain ⟨c0, hc0⟩ : ∃ c0, t'.Payload[0]? = some c0 := Option.ne_none_iff_exists'.1 hp
      simp only [Insert, walkback, htr, hg, Res.bind_ok, at?_eq_ok.2 hc0, hst0, hst,
        at?_eq_ok.2 hd, hdi]

/-- When `Append` returns an error: the path is not indexed. -/
theorem Append_fails_iff {fuel : Nat} {t t' : TreeMap} {path : String} {blocks : List Nat}
    {e : Err} :
    Append fuel t path blocks = Res.ok (t', some e) ↔
      t' = t ∧ (∃ tr, t.tree = some tr ∧ PathMap.Get tr path = none) ∧ e = Err.badPath path := by
  constructor
  · intro h
    have h0 := h
    simp only [Append, Res.bind_eq_ok] at h
    obtain ⟨r, hr, h⟩ := h
    obtain ⟨tr, htr, hcase⟩ := walkback_ok hr
    rcases hcase with ⟨hg, rfl⟩ | ⟨wb, _, rfl⟩
    · exact ⟨(Append_error h0).1, ⟨tr, htr, hg⟩, (Append_error h0).2⟩
    · simp only [Res.bind_eq_ok, Res.ok.injEq, Prod.mk.injEq] at h
      obtain ⟨_, _, _, _, _, _, _, _, _, _, _, h⟩ := h
      cases h
  · rintro ⟨rfl, ⟨tr, htr, hg⟩, rfl⟩
    simp [Append, walkback, htr, hg, Res.bind]

/-- When `Delete` returns an error: the path is not indexed, or no element of the
resolved sequence is the node of the record. -/
theorem Delete_fails_iff {t t' : TreeMap} {path : String} {e : Err} :
    Delete t path = Res.ok (t', some e) ↔
      t' = t ∧
      (((∃ tr, t.tree = some tr ∧ PathMap.Get tr path = none) ∧ e = Err.badPath path) ∨
        ∃ wb ref l, recordAt t path = some wb ∧
          resolve t (readSlice t.ints wb.Indicies) = Res.ok (some ref) ∧
          seqAt t.dirs t.Payload ref = Res.ok l ∧ wb.Directive ∉ l ∧
          e = Err.couldNotDelete) := by
  constructor
  · intro h
    simp only [Delete, Res.bind_eq_ok] at h
    obtain ⟨r, hr, h⟩ := h
    obtain ⟨tr, htr, hcase⟩ := walkback_ok hr
    rcases hcase with ⟨hg, rfl⟩ | ⟨wb, hg, rfl⟩
    · simp only [Res.ok.injEq, Prod.mk.injEq, Option.some.injEq] at h
      exact ⟨h.1.symm, Or.inl ⟨⟨tr, htr, hg⟩, h.2.symm⟩⟩
    · simp only [Res.bind_eq_ok] at h
      obtain ⟨b, hb, l, hl, h⟩ := h
      cases b with
      | none => simp [derefSeq] at hl
      | some ref =>
        cases hk : findKill wb.Directive l 0 with
        | some i => simp [hk] at h
        | none =>
          simp only [hk, Res.ok.injEq, Prod.mk.injEq, Option.some.injEq] at h
          refine ⟨h.1.symm, Or.inr ⟨wb, ref, l, ?_, hb, hl, (findKill_eq_none l 0).1 hk,
            h.2.symm⟩⟩
          simp [recordAt, htr, hg]
  · rintro ⟨rfl, ⟨⟨tr, htr, hg⟩, rfl⟩ | ⟨wb, ref, l, hrec, hb, hl, hk, rfl⟩⟩
    · simp [Delete, walkback, htr, hg, Res.bind]
    · obtain ⟨tr, htr, hg⟩ := recordAt_some hrec
      simp only [Delete, walkback, htr, hg, Res.bind_ok, hb, derefSeq, hl,
        (findKill_eq_none l 0).2 hk]

/-- An instruction returns an error exactly for one of its causes of failure,
and then leaves the state alone. -/
theorem applyChange_fails_iff {fuel k : Nat} {c : Changes} {t t' : TreeMap} {e : Err} :
    applyChange fuel k c t = Res.ok (t', some e) ↔ t' = t ∧ FailureOf k c t e := by
  have d12 : ¬ ActionInsert = ActionAppend := by decide
  have d13 : ¬ ActionInsert = ActionDelete := by decide
  have d21 : ¬ ActionAppend = ActionInsert := by decide
  have d23 : ¬ ActionAppend = ActionDelete := by decide
  have d31 : ¬ ActionDelete = ActionInsert := by decide
  have d32 : ¬ ActionDelete = ActionAppend := by decide
  unfold applyChange FailureOf
  by_cases h1 : c.Act = ActionInsert
  · rw [if_pos h1, Insert_fails_iff]
    simp [h1, d12, d13]
  · by_cases h2 : c.Act = ActionAppend
    · rw [if_neg h1, if_pos h2, Append_fails_iff]
      simp [h2, d21, d23]
    · by_cases h3 : c.Act = ActionDelete
      · rw [if_neg h1, if_neg h2, if_pos h3, Delete_fails_iff]
        simp [h3, d31, d32]
      · rw [if_neg h1, if_neg h2, if_neg h3]
        simp only [h1, h2, h3, false_or, false_and, not_false_eq_true, true_and, or_false,
          Res.ok.injEq, Prod.mk.injEq, Option.some.injEq, ne_eq]
        constructor
        · rintro ⟨rfl, rfl⟩; exact ⟨rfl, rfl⟩
        · rintro ⟨rfl, rfl⟩; exact ⟨rfl, rfl⟩

/-- `ChangeSet` returns an error exactly when the instructions before some
instruction `k` return none and instruction `k`, run on the state they reach,
returns that error. -/
theorem changeSet_fails_iff {fuel : Nat} {t t' : TreeMap} {changes : List Changes} {e : Err} :
    ChangeSet fuel t changes = Res.ok (t', some e) ↔
      ∃ k c, changes[k]? = some c ∧
        ChangeSet fuel t (changes.take k) = Res.ok (t', none) ∧
        applyChange fuel k c t' = Res.ok (t', some e) := by
  constructor
  · intro h
    obtain ⟨j, c, t1, hj, htake, happ⟩ := changeLoop_error fuel changes 0 t t' e h
    rw [Nat.zero_add] at happ
    have ht := (applyChange_error happ).1
    subst ht
    exact ⟨j, c, hj, htake, happ⟩
  · rintro ⟨k, c, hk, htake, happ⟩
    obtain ⟨hlt, hc⟩ := List.getElem?_eq_some.1 hk
    have hsplit : changes = changes.take k ++ c :: changes.drop (k + 1) := by
      rw [← hc, ← List.drop_eq_getElem_cons hlt, List.take_append_drop]
    have hlen : (changes.take k).length = k := by
      rw [List.length_take]; omega
    unfold ChangeSet at htake ⊢
    rw [hsplit, changeLoop_append, htake]
    simp only [Res.bind_ok, Nat.zero_add, hlen, changeLoop, happ]

/-- C18 (amended).  `ChangeSet` returns an error exactly when the instructions before
some instruction `k` return none and instruction `k`, run on the state they reach,
returns that error; the error is returned unchanged, with the state reached
before `k`, whatever follows `k` in the list.  An instruction returns an error
exactly for one of its causes of failure, with the error of that cause.  In
particular, after instructions that return no error: an instruction with the
tag of `Insert`, `Append` or `Delete` and an unindexed path makes `ChangeSet` return
`bad path`, which names the path but no instruction number; a `Delete` whose
search finds no element of the resolved sequence equal to the node of the
record makes it return `could not delete`, which names neither; an instruction
with an unsupported tag makes it return the error that names the number `k`
and the tag but not the path. -/
theorem changeSet_error_content (fuel : Nat) (t : TreeMap) :
    (∀ changes t' e, ChangeSet fuel t changes = Res.ok (t', some e) ↔
      ∃ k c, changes[k]? = some c ∧
        ChangeSet fuel t (changes.take k) = Res.ok (t', none) ∧
        applyChange fuel k c t' = Res.ok (t', some e)) ∧
    (∀ k c t1 t2 e, applyChange fuel k c t1 = Res.ok (t2, some e) ↔
      t2 = t1 ∧ FailureOf k c t1 e) ∧
    (∀ k c t1 e, FailureOf k c t1 e →
      ErrorOf k c e ∧
      ((c.Act = ActionInsert ∨ c.Act = ActionAppend ∨ c.Act = ActionDelete) →
        e.instruction? = none ∧
        (e.path? = some c.Path ∨ (e = Err.couldNotDelete ∧ e.path? = none))) ∧
      ((c.Act ≠ ActionInsert ∧ c.Act ≠ ActionAppend ∧ c.Act ≠ ActionDelete) →
        e.instruction? = some k ∧ e.path? = none)) ∧
    (∀ a c b t1, ChangeSet fuel t a = Res.ok (t1, none) →
      ((c.Act = ActionInsert ∨ c.Act = ActionAppend ∨ c.Act = ActionDelete) →
        ∀ tr, t1.tree = some tr → PathMap.Get tr c.Path = none →
          ChangeSet fuel t (a ++ c :: b) = Res.ok (t1, some (Err.badPath c.Path)) ∧
          (Err.badPath c.Path).instruction? = none ∧
          (Err.badPath c.Path).path? = some c.Path) ∧
      (c.Act = ActionDelete →
        ∀ wb ref l, recordAt t1 c.Path = some wb →
          resolve t1 (readSlice t1.ints wb.Indicies) = Res.ok (some ref) →
          seqAt t1.dirs t1.Payload ref = Res.ok l → wb.Directive ∉ l →
          ChangeSet fuel t (a ++ c :: b) = Res.ok (t1, some Err.couldNotDelete) ∧
          Err.couldNotDelete.instruction? = none ∧ Err.couldNotDelete.path? = none) ∧
      ((c.Act ≠ ActionInsert ∧ c.Act ≠ ActionAppend ∧ c.Act ≠ ActionDelete) →
        ChangeSet fuel t (a ++ c :: b)
          = Res.ok (t1, some (Err.notSupported a.length c.Act)) ∧
        (Err.notSupported a.length c.Act).instruction? = some a.length ∧
        (Err.notSupported a.length c.Act).path? = none)) := by
  have hrun : ∀ a c b t1 e, ChangeSet fuel t a = Res.ok (t1, none) →
      FailureOf a.length c t1 e → ChangeSet fuel t (a ++ c :: b) = Res.ok (t1, some e) := by
    intro a c b t1 e ha hf
    have hc : applyChange fuel a.length c t1 = Res.ok (t1, some e) :=
      applyChange_fails_iff.2 ⟨rfl, hf⟩
    simp only [ChangeSet] at ha ⊢
    rw [changeLoop_append, ha]
    simp only [Res.bind_ok, Nat.zero_add, changeLoop, hc]
  refine ⟨fun changes t' e => changeSet_fails_iff, fun k c t1 t2 e => applyChange_fails_iff,
    ?_, ?_⟩
  · intro k c t1 e hf
    have hc : applyChange fuel k c t1 = Res.ok (t1, some e) :=
      applyChange_fails_iff.2 ⟨rfl, hf⟩
    have herr : ErrorOf k c e := (applyChange_error hc).2
    refine ⟨herr, ?_, ?_⟩
    · intro hact
      rcases herr with ⟨_, h | ⟨off, h⟩⟩ | ⟨_, h⟩ | ⟨_, h | h⟩ | ⟨h1, h2, h3, _⟩
      · subst h; exact ⟨rfl, Or.inl rfl⟩
      · subst h; exact ⟨rfl, Or.inl rfl⟩
      · subst h; exact ⟨rfl, Or.inl rfl⟩
      · subst h; exact ⟨rfl, Or.inl rfl⟩
      · subst h; exact ⟨rfl, Or.inr ⟨rfl, rfl⟩⟩
      · rcases hact with h | h | h
        · exact absurd h h1
        · exact absurd h h2
        · exact absurd h h3
    · rintro ⟨h1, h2, h3⟩
      rcases herr with ⟨h, _⟩ | ⟨h, _⟩ | ⟨h, _⟩ | ⟨_, _, _, h⟩
      · exact absurd h h1
      · exact absurd h h2
      · exact absurd h h3
      · subst h; exact ⟨rfl, rfl⟩
  · intro a c b t1 ha
    refine ⟨fun hact tr htr hg => ⟨hrun a c b t1 _ ha (Or.inl ⟨hact, ⟨tr, htr, hg⟩, rfl⟩),
        rfl, rfl⟩,
      fun hact wb ref l hrec hres hl hk =>
        ⟨hrun a c b t1 _ ha (Or.inr (Or.inr (Or.inl ⟨hact, wb, ref, l, hrec, hres, hl, hk,
          rfl⟩))), rfl, rfl⟩,
      fun hact => ⟨hrun a c b t1 _ ha (Or.inr (Or.inr (Or.inr ⟨hact.1, hact.2.1, hact.2.2,
        rfl⟩))), rfl, rfl⟩⟩

set_option maxRecDepth 100000 in
/-- C18 (amended), on the built scenario document `server { listen 80; }`, after the
instruction `Append("/server", proxy_pass)`, which returns no error: a `Delete` of the
unindexed path `/nowhere` returns `bad path` for that path; the `Delete` of
`/server/listen`, whose record now resolves to the sequence `[server]` of the unit,
returns `could not delete`; an instruction with the tag `ActionUpdate` returns the
error for an unsupported tag with the number 1.  Each time the state is the
one reached by the `Append`, and the instruction that follows is not run. -/
theorem changeSet_error_content_witness :
    ChangeSet 3 serverTree
        [⟨ActionAppend, "/server", [2]⟩, ⟨ActionDelete, "/nowhere", []⟩,
          ⟨ActionDelete, "/server", []⟩]
      = Res.ok (serverAppended, some (Err.badPath "/nowhere")) ∧
    ChangeSet 3 serverTree
        [⟨ActionAppend, "/server", [2]⟩, ⟨ActionDelete, "/server/listen", []⟩,
          ⟨ActionDelete, "/server", []⟩]
      = Res.ok (serverAppended, some Err.couldNotDelete) ∧
    ChangeSet 3 serverTree
        [⟨ActionAppend, "/server", [2]⟩, ⟨ActionUpdate, "/server", [2]⟩,
          ⟨ActionDelete, "/server", []⟩]
      = Res.ok (serverAppended, some (Err.notSupported 1 ActionUpdate)) :=
  have happ : ChangeSet 3 serverTree [⟨ActionAppend, "/server", [2]⟩]
      = Res.ok (serverAppended, none) := by rfl
  have h := (changeSet_error_content 3 serverTree).2.2.2 [⟨ActionAppend, "/server", [2]⟩]
  ⟨((h ⟨ActionDelete, "/nowhere", []⟩ [⟨ActionDelete, "/server", []⟩] serverAppended happ).1
      (Or.inr (Or.inr rfl)) _ rfl (by decide)).1,
    ((h ⟨ActionDelete, "/server/listen", []⟩ [⟨ActionDelete, "/server", []⟩] serverAppended
      happ).2.1 rfl ⟨⟨0, 1⟩, 0, 1⟩ (SeqRef.unit 0) [0] (by rfl) (by rfl) (by rfl)
      (by decide)).1,
    ((h ⟨ActionUpdate, "/server", [2]⟩ [⟨ActionDelete, "/server", []⟩] serverAppended
      happ).2.2 (by decide)).1⟩

/-! ### `Apply` -/

theorem mem_insertByKey {α : Type} (x e : String × α) :
    ∀ l : PathMap α, e ∈ insertByKey x l → e = x ∨ e ∈ l := by
  intro l
  induction l with
  | nil => intro h; simpa [insertByKey] using h
  | cons y l ih =>
    intro h
    simp only [insertByKey] at h
    split at h
    · simpa using h
    · rcases List.mem_cons.1 h with h | h
      · exact Or.inr (by rw [h]; exact List.mem_cons_self _ _)
      · rcases ih h with h | h
        · exact Or.inl h
        · exact Or.inr (List.mem_cons_of_mem _ h)

theorem mem_inOrder {α : Type} (e : String × α) :
    ∀ t : PathMap α, e ∈ t.inOrder → e ∈ t := by
  intro t
  induction t with
  | nil => intro h; simp [PathMap.inOrder] at h
  | cons x t ih =>
    intro h
    simp only [PathMap.inOrder, List.foldr_cons] at h
    rcases mem_insertByKey x e _ h with h | h
    · rw [h]; exact List.mem_cons_self _ _
    · exact List.mem_cons_of_mem _ (ih h)

/-- The walk of `Apply` returns when the recorded pointers are cells of the
store. -/
theorem walkEntries_applyVisit (m : Matcher) (blocks : List Nat) :
    ∀ (entries : Radix) (dirs : List Directive),
      (∀ e, e ∈ entries → e.2.Directive < dirs.length) →
      ∃ dirs1, walkEntries (applyVisit m blocks) entries dirs = Res.ok dirs1 := by
  intro entries
  induction entries with
  | nil => intro dirs _; exact ⟨dirs, rfl⟩
  | cons e entries ih =>
    intro dirs h
    simp only [walkEntries, applyVisit]
    by_cases hm : m dirs e.2.Directive = true
    · have hlt := h e (List.mem_cons_self _ _)
      have hat : at? dirs e.2.Directive = Res.ok dirs[e.2.Directive] :=
        at?_eq_ok.2 (List.getElem?_eq_getElem hlt)
      simp only [hm, if_true, hat, Res.bind_ok]
      exact ⟨_, rfl⟩
    · simp only [hm, Bool.false_eq_true, if_false, Res.bind_ok]
      exact ih dirs (fun e' he' => h e' (List.mem_cons_of_mem _ he'))

/-- C19.  Whenever `Apply` returns, it returns no error and the index is untouched:
the radix tree, the backing arrays of the ancestor paths and the units are
as before, so every path has the record, with the ancestor path and the
offset, that it had before, and `Get` on a path that was not indexed before
still fails with the not-found error, also for the path of an appended node.
`Apply` does return when the tree is not nil and the pointers of its records
are cells of the store. -/
theorem apply_keeps_index (t : TreeMap) (path : String) (m : Matcher) (blocks : List Nat) :
    (∀ t' e, Apply t path m blocks = Res.ok (t', e) →
      e = none ∧ t'.tree = t.tree ∧ t'.ints = t.ints ∧ t'.Payload = t.Payload ∧
      (∀ key, recordAt t' key = recordAt t key ∧ ancestorsAt t' key = ancestorsAt t key) ∧
      (∀ key fuel, recordAt t key = none →
        Get fuel t' key = Res.ok (t', Except.error (Err.notFound key)))) ∧
    (∀ tr, t.tree = some tr → (∀ e, e ∈ tr → e.2.Directive < t.dirs.length) →
      ∃ t', Apply t path m blocks = Res.ok (t', none)) := by
  constructor
  · intro t' e h
    unfold Apply at h
    cases htr : t.tree with
    | none => simp [htr] at h
    | some tr =>
      simp only [htr, Res.bind_eq_ok, Res.ok.injEq, Prod.mk.injEq] at h
      obtain ⟨dirs1, _, rfl, rfl⟩ := h
      refine ⟨rfl, rfl, rfl, rfl, fun key => ?_, ?_⟩
      · simp [recordAt, ancestorsAt, htr]
      · intro key fuel hk
        have hk' : PathMap.Get tr key = none := by simpa [recordAt, htr] using hk
        exact Get_of_no_record rfl hk'
  · intro tr htr hptr
    obtain ⟨dirs1, h1⟩ := walkEntries_applyVisit m blocks
      (tr.inOrder.filter fun e => path.data.isPrefixOf e.1.data) t.dirs
      (fun e he => hptr e (mem_inOrder e tr (List.mem_filter.1 he).1))
    exact ⟨{ t with dirs := dirs1 }, by simp only [Apply, htr, PathMap.WalkPrefix, h1, Res.bind_ok]⟩

set_option maxRecDepth 100000 in
theorem pairTree_built : NewTree 3 pairDirs pairCfg = Res.ok pairTree := by rfl

set_option maxRecDepth 100000 in
/-- C19, on the built document `events { } http { }`: `Apply("/", m, gzip on)` with the matcher
that accepts everything returns no error, and `Get("/events/gzip")` fails afterwards. -/
theorem apply_keeps_index_witness :
    ∃ t', Apply pairTree "/" anyDirective [2] = Res.ok (t', none) ∧
      t'.tree = pairTree.tree ∧
      Get 3 t' "/events/gzip" = Res.ok (t', Except.error (Err.notFound "/events/gzip")) := by
  obtain ⟨t', h⟩ := (apply_keeps_index pairTree "/" anyDirective [2]).2
    [("/events", ⟨⟨0, 1⟩, 0, 0⟩), ("/http", ⟨⟨0, 1⟩, 1, 1⟩)] (by rfl) (by decide)
  obtain ⟨_, htree, _, _, _, hget⟩ := (apply_keeps_index pairTree "/" anyDirective [2]).1 t' none h
  exact ⟨t', h, htree, hget "/events/gzip" 3 (by rfl)⟩

/-! ### Totality of index construction -/

/-- With a rank that falls along children and inclusions the traversal returns
for every recursion budget above the rank of the sequence it starts from. -/
theorem walk_total {dirs : List Directive} {cfg : List Config} {rank : SeqRef → Nat}
    (h : Ranked dirs cfg rank) :
    ∀ (m : Nat) (r : SeqRef) (blocks : List Nat) (path : String) (anc : List Nat),
      seqAt dirs cfg r = Res.ok blocks → rank r < m →
      ∃ L, walk dirs cfg m path r anc blocks = Res.ok L := by
  intro m
  induction m with
  | zero => intro r blocks path anc _ hlt; omega
  | succ m ih =>
    intro r blocks path anc hseq hlt
    simp only [walk]
    refine rangeCollect_exists _ blocks 0 ?_
    intro j p hj
    have hp : p ∈ blocks := List.getElem?_mem hj
    have hplt : p < dirs.length := h.ptr r blocks p hseq hp
    obtain ⟨d, hd⟩ : ∃ d, dirs[p]? = some d := ⟨dirs[p], List.getElem?_eq_getElem hplt⟩
    rw [at?_eq_ok.2 hd]
    simp only [Res.bind_ok]
    by_cases hc : d.Directive = "#"
    · exact ⟨[], by simp only [hc, if_true]⟩
    · by_cases hi : d.Directive = "include"
      · simp only [hc, hi, if_true, if_false]
        refine rangeCollect_exists _ _ 0 ?_
        intro k u hk
        obtain ⟨hu, hrank⟩ := h.incl r blocks p d u hseq hp hd hc hi (List.getElem?_mem hk)
        obtain ⟨c, hcu⟩ : ∃ c, cfg[u]? = some c := ⟨cfg[u], List.getElem?_eq_getElem hu⟩
        rw [at?_eq_ok.2 hcu]
        exact ih (SeqRef.unit u) _ path [u] (seqAt_unit hcu) (by omega)
      · simp only [hc, hi, if_false]
        obtain ⟨L, hL⟩ := ih (SeqRef.block p) d.Block (path ++ pathSep ++ d.Name)
          (anc ++ [0 + j]) (seqAt_block hd)
          (by have := h.child r blocks p d hseq hp hd hc hi; omega)
        exact ⟨_, by rw [hL]; rfl⟩

/-- C20.  Index construction is total under its preconditions: for every
document with a non-empty unit list in which every pointer is a cell, every
include index is smaller than the number of units and a rank falls along the
two descents of the recursion (into the children of an ordinary node, into
the units named by an include directive), `NewTree` returns, without panic, for
every recursion budget above the rank of unit 0, and leaves the document as
it is. -/
theorem build_total (dirs : List Directive) (cfg : List Config) (rank : SeqRef → Nat)
    (hcfg : 0 < cfg.length) (h : Ranked dirs cfg rank) :
    ∀ m, rank (SeqRef.unit 0) < m →
      ∃ t, NewTree m dirs cfg = Res.ok t ∧ t.dirs = dirs ∧ t.Payload = cfg := by
  intro m hm
  obtain ⟨c0, hc0⟩ : ∃ c, cfg[0]? = some c := ⟨cfg[0], List.getElem?_eq_getElem hcfg⟩
  obtain ⟨L, hL⟩ := walk_total h m (SeqRef.unit 0) c0.Parsed "" [0] (seqAt_unit hc0) hm
  have ht : traversal dirs cfg m = Res.ok L := by
    simp only [traversal, at?_eq_ok.2 hc0, Res.bind_ok, hL]
  obtain ⟨t, _, hb, hd, hp, _, _⟩ := build_records ht
  exact ⟨t, hb, hd, hp⟩

/-- A unit that includes itself exhausts every recursion budget. -/
theorem inject_self_include :
    ∀ (m : Nat) (path : String) (index : IntSlice) (s : Idx),
      inject loopDirs loopCfg m path index [0] s = Res.fuel := by
  intro m
  induction m with
  | zero => intros; rfl
  | succ m ih =>
    intro path index s
    have h := ih path (newSlice s.ints 0).2 ⟨(newSlice s.ints 0).1, s.tree⟩
    simp only [inject, rangeLoop, loopDirs, loopCfg, at?, List.getElem?_cons_zero, Res.bind_ok,
      String.reduceEq, if_false, if_true] at h ⊢
    rw [h]
    rfl

theorem build_self_include : ∀ m, NewTree m loopDirs loopCfg = Res.fuel := by
  intro m
  have h := inject_self_include m "" (newSlice [] 0).2 ⟨(newSlice [] 0).1, []⟩
  simp only [NewTree, buildTree, loopCfg, at?, List.getElem?_cons_zero, Res.bind_ok] at h ⊢
  rw [h]
  rfl

theorem includeDoc_seqs {r : SeqRef} {l : List Nat}
    (h : seqAt includeDirs includeCfg r = Res.ok l) :
    (r = SeqRef.unit 0 ∧ l = [0, 1]) ∨ (r = SeqRef.unit 1 ∧ l = [3, 4]) ∨
    (r = SeqRef.block 1 ∧ l = [2]) ∨ l = [] := by
  cases r with
  | unit u =>
    rcases u with _ | _ | u
    · exact Or.inl ⟨rfl, by simpa [seqAt, at?, includeCfg, Res.bind] using h.symm⟩
    · exact Or.inr (Or.inl ⟨rfl, by simpa [seqAt, at?, includeCfg, Res.bind] using h.symm⟩)
    · simp [seqAt, at?, includeCfg, Res.bind] at h
  | block p =>
    rcases p with _ | _ | _ | _ | _ | p
    · exact Or.inr (Or.inr (Or.inr (by simpa [seqAt, at?, includeDirs, Res.bind] using h.symm)))
    · exact Or.inr (Or.inr (Or.inl
        ⟨rfl, by simpa [seqAt, at?, includeDirs, Res.bind] using h.symm⟩))
    · exact Or.inr (Or.inr (Or.inr (by simpa [seqAt, at?, includeDirs, Res.bind] using h.symm)))
    · exact Or.inr (Or.inr (Or.inr (by simpa [seqAt, at?, includeDirs, Res.bind] using h.symm)))
    · exact Or.inr (Or.inr (Or.inr (by simpa [seqAt, at?, includeDirs, Res.bind] using h.symm)))
    · simp [seqAt, at?, includeDirs, Res.bind] at h

theorem includeDoc_ranked : Ranked includeDirs includeCfg includeRank := by
  refine ⟨?_, ?_, ?_⟩
  · intro r l p hs hp
    rcases includeDoc_seqs hs with ⟨_, rfl⟩ | ⟨_, rfl⟩ | ⟨_, rfl⟩ | rfl
    · simp at hp; rcases hp with rfl | rfl <;> decide
    · simp at hp; rcases hp with rfl | rfl <;> decide
    · simp at hp; subst hp; decide
    · simp at hp
  · intro r l p d hs hp hd hc hi
    rcases includeDoc_seqs hs with ⟨rfl, rfl⟩ | ⟨rfl, rfl⟩ | ⟨rfl, rfl⟩ | rfl
    · simp at hp
      rcases hp with rfl | rfl
      · simp [includeDirs] at hd; subst hd; simp at hi
      · decide
    · simp at hp
      rcases hp with rfl | rfl
      · decide
      · simp [includeDirs] at hd; subst hd; simp at hc
    · simp at hp; subst hp; decide
    · simp at hp
  · intro r l p d u hs hp hd hc hi hu
    rcases includeDoc_seqs hs with ⟨rfl, rfl⟩ | ⟨rfl, rfl⟩ | ⟨rfl, rfl⟩ | rfl
    · simp at hp
      rcases hp with rfl | rfl
      · simp [includeDirs] at hd; subst hd; simp at hu; subst hu; decide
      · simp [includeDirs] at hd; subst hd; simp at hi
    · simp at hp
      rcases hp with rfl | rfl
      · simp [includeDirs] at hd; subst hd; simp at hi
      · simp [includeDirs] at hd; subst hd; simp at hc
    · simp at hp; subst hp; simp [includeDirs] at hd; subst hd; simp at hi
    · simp at hp

/-- C20, on the document with an inclusion: unit 0 has rank 2, so the recursion
budget 3 is enough. -/
theorem build_total_witness :
    ∃ t, NewTree 3 includeDirs includeCfg = Res.ok t ∧ t.dirs = includeDirs ∧
      t.Payload = includeCfg :=
  build_total includeDirs includeCfg includeRank (by decide) includeDoc_ranked 3 (by decide)

end Crossplane
